import Mathlib

/-!
Verification of the schematic annotation-extraction core.

The definitions below are a shallow embedding of the TypeScript source:
JavaScript strings are modelled as Lean `String` (sequences of Unicode code
points), JavaScript objects as ordered association lists `List (String × Json)`
with JavaScript assignment/spread semantics, thrown exceptions as `Except`,
and `JSON`-representable values as the inductive `Json` (numbers restricted to
integers; the host's numbers are IEEE doubles, which have no shallow
embedding here).
-/

namespace Schematic

/-- The value space produced by the Value Parser: JSON-representable data.
Numbers are modelled as integers; objects are ordered key/value lists as
JavaScript objects enumerate them. -/
inductive Json where
  | null : Json
  | bool : Bool → Json
  | num : Int → Json
  | str : String → Json
  | arr : List Json → Json
  | obj : List (String × Json) → Json

/-- The whitespace class trimmed by JavaScript's `String.prototype.trim`
(restricted to the ASCII whitespace characters). -/
def isJsWs (c : Char) : Bool :=
  c = ' ' || c = '\t' || c = '\n' || c = '\r' || c = '\x0b' || c = '\x0c'

/-- Model of JavaScript `s.trim()` on code-point lists. -/
def jsTrimChars (l : List Char) : List Char :=
  ((l.dropWhile isJsWs).reverse.dropWhile isJsWs).reverse

/-- Model of JavaScript `s.trim()`. -/
def jsTrim (s : String) : String :=
  String.mk (jsTrimChars s.data)

/-! ## Argument Splitter (`splitArguments`, src/unnamed/part_004)

The source is a single left-to-right scan with mutable
`parts`/`current`/`quoteChar`/`bracketDepth`; `quoteChar = ''` is modelled as
`none`, and the depth is an `Int` because the JavaScript counter can go
negative on unbalanced input. -/

/-- The mutable state of the `splitArguments` loop. -/
structure SplitState where
  parts : List String
  current : List Char
  quoteChar : Option Char
  bracketDepth : Int
deriving Repr, DecidableEq

/-- The quote-toggle of the `splitArguments` loop body. -/
def stepQuote (qc : Option Char) (c : Char) : Option Char :=
  if (c = '"' ∨ c = '\'') ∧ qc = none then some c
  else if some c = qc then none
  else qc

/-- The bracket-depth update of the `splitArguments` loop body (applied with
the already-updated quote register, as in the source). -/
def stepDepth (q : Option Char) (d : Int) (c : Char) : Int :=
  if q = none then
    if c = '[' ∨ c = '{' then d + 1
    else if c = ']' ∨ c = '}' then d - 1
    else d
  else d

/-- One iteration of the `for (const char of str)` loop of `splitArguments`. -/
def splitStep (s : SplitState) (c : Char) : SplitState :=
  let q := stepQuote s.quoteChar c
  let d := stepDepth q s.bracketDepth c
  -- Split on comma only when outside quotes and brackets
  if c = ',' ∧ q = none ∧ d = 0 then
    { parts := s.parts ++ [String.mk s.current], current := [], quoteChar := q, bracketDepth := d }
  else
    { parts := s.parts, current := s.current ++ [c], quoteChar := q, bracketDepth := d }

/-- The initial state of the `splitArguments` scan. -/
def splitInit : SplitState := ⟨[], [], none, 0⟩

/-- `splitArguments` from src/unnamed/part_004: split an argument list on
commas, respecting quotes and brackets; a trailing segment is kept only when
its trimmed form is nonempty. -/
def splitArguments (str : String) : List String :=
  let s := str.data.foldl splitStep splitInit
  if jsTrim (String.mk s.current) ≠ "" then s.parts ++ [String.mk s.current] else s.parts

/-- The scan state of `splitArguments` after consuming the first `i`
characters of the input. -/
def scanState (str : String) (i : Nat) : SplitState :=
  (str.data.take i).foldl splitStep splitInit

/-- The quote register only ever holds `'"'` or `'\''`. -/
def QuoteInv (qc : Option Char) : Prop :=
  qc = none ∨ qc = some '"' ∨ qc = some '\''

theorem stepQuote_inv (qc : Option Char) (c : Char) (h : QuoteInv qc) :
    QuoteInv (stepQuote qc c) := by
  unfold stepQuote
  split
  · rename_i h1
    cases h1.1 with
    | inl hc => subst hc; right; left; rfl
    | inr hc => subst hc; right; right; rfl
  · split
    · left; rfl
    · exact h

theorem stepQuote_comma (qc : Option Char) (h : QuoteInv qc) :
    stepQuote qc ',' = qc := by
  rcases h with h | h | h <;> subst h <;> decide

theorem stepDepth_comma (q : Option Char) (d : Int) : stepDepth q d ',' = d := by
  unfold stepDepth
  split <;> simp

theorem splitStep_quoteInv (s : SplitState) (c : Char) (h : QuoteInv s.quoteChar) :
    QuoteInv (splitStep s c).quoteChar := by
  have hq := stepQuote_inv s.quoteChar c h
  simp only [splitStep]
  split <;> exact hq

theorem splitStep_parts (s : SplitState) (c : Char) :
    (splitStep s c).parts =
      if c = ',' ∧ stepQuote s.quoteChar c = none ∧
          stepDepth (stepQuote s.quoteChar c) s.bracketDepth c = 0 then
        s.parts ++ [String.mk s.current]
      else s.parts := by
  simp only [splitStep]
  split <;> rfl

theorem scanState_quoteInv (str : String) (i : Nat) :
    QuoteInv (scanState str i).quoteChar := by
  unfold scanState
  induction (str.data.take i) using List.reverseRecOn with
  | nil => left; rfl
  | append_singleton l c ih =>
    rw [List.foldl_append]
    exact splitStep_quoteInv _ _ ih

theorem splitStep_parts_grow_iff (s : SplitState) (c : Char) (h : QuoteInv s.quoteChar) :
    (splitStep s c).parts.length = s.parts.length + 1 ↔
      (c = ',' ∧ s.quoteChar = none ∧ s.bracketDepth = 0) := by
  rw [splitStep_parts]
  by_cases hc : c = ','
  · subst hc
    rw [stepQuote_comma _ h, stepDepth_comma]
    by_cases hqd : s.quoteChar = none ∧ s.bracketDepth = 0
    · rw [if_pos ⟨rfl, hqd.1, hqd.2⟩]
      simp [hqd.1, hqd.2]
    · rw [if_neg (fun hx => hqd ⟨hx.2.1, hx.2.2⟩)]
      constructor
      · intro hlen; omega
      · intro hx; exact absurd ⟨hx.2.1, hx.2.2⟩ hqd
  · rw [if_neg (fun hx => hc hx.1)]
    constructor
    · intro hlen; omega
    · intro hx; exact absurd hx.1 hc

theorem scanState_succ (str : String) (i : Nat) (c : Char)
    (hc : str.data[i]? = some c) :
    scanState str (i + 1) = splitStep (scanState str i) c := by
  unfold scanState
  rw [List.take_succ, hc]
  simp [List.foldl_append]

/-- C1: `splitArguments` places a segment boundary at the character at index
`i` exactly when that character is a comma, the scan is not inside a quoted
span, and the bracket/brace nesting depth is zero; and the example argument
list splits into exactly two segments. -/
theorem splitArguments_never_splits_inside_quotes_or_brackets :
    (∀ (str : String) (i : Nat) (c : Char), str.data[i]? = some c →
      ((scanState str (i + 1)).parts.length = (scanState str i).parts.length + 1 ↔
        (c = ',' ∧ (scanState str i).quoteChar = none ∧
          (scanState str i).bracketDepth = 0)))
    ∧ splitArguments "columns: [\"a,b\", \"c,d\"], type: \"btree\"" =
        ["columns: [\"a,b\", \"c,d\"]", " type: \"btree\""] := by
  constructor
  · intro str i c hc
    rw [scanState_succ str i c hc]
    exact splitStep_parts_grow_iff _ _ (scanState_quoteInv str i)
  · decide

/-- Concrete instantiation of the C1 boundary criterion at index 12 of the
example input, the comma inside the quoted `a,b`: the criterion applies there,
and since the scan is quoting at that point no boundary is placed. -/
theorem splitArguments_never_splits_inside_quotes_or_brackets_witness :
    (scanState "columns: [\"a,b\", \"c,d\"], type: \"btree\"" 13).parts.length =
        (scanState "columns: [\"a,b\", \"c,d\"], type: \"btree\"" 12).parts.length + 1 ↔
      (',' = ',' ∧ (scanState "columns: [\"a,b\", \"c,d\"], type: \"btree\"" 12).quoteChar = none ∧
        (scanState "columns: [\"a,b\", \"c,d\"], type: \"btree\"" 12).bracketDepth = 0) :=
  splitArguments_never_splits_inside_quotes_or_brackets.1
    "columns: [\"a,b\", \"c,d\"], type: \"btree\"" 12 ',' (by decide)

/-! ## Value Parser (`parseValue`, src/unnamed/part_004)

`parseValue` trims its input and tries `JSON.parse`, falling back to the
trimmed text. `JSON.parse` and `JSON.stringify` are host-platform functions;
they are modelled below from the JSON grammar the spec names ("the host's
data-interchange literal syntax"), with numbers restricted to integer
literals (fractional and exponent forms denote doubles, which the embedding
does not model) and `\uXXXX` escapes restricted to scalar values. -/

/-- The decimal digit character for `n` (clamped above at `'9'`). -/
def digitChar (n : Nat) : Char :=
  match n with
  | 0 => '0' | 1 => '1' | 2 => '2' | 3 => '3' | 4 => '4'
  | 5 => '5' | 6 => '6' | 7 => '7' | 8 => '8' | _ => '9'

/-- The lowercase hexadecimal digit character for `n` (clamped above at `'f'`). -/
def hexChar (n : Nat) : Char :=
  match n with
  | 0 => '0' | 1 => '1' | 2 => '2' | 3 => '3' | 4 => '4'
  | 5 => '5' | 6 => '6' | 7 => '7' | 8 => '8' | 9 => '9'
  | 10 => 'a' | 11 => 'b' | 12 => 'c' | 13 => 'd' | 14 => 'e' | _ => 'f'

/-- The numeric value of a decimal digit character. -/
def digitVal (c : Char) : Nat := c.toNat - 48

/-- Decimal digit test on a character. -/
def isDigitC (c : Char) : Bool := 48 ≤ c.toNat && c.toNat ≤ 57

/-- Digit-string worker: `fuel` bounds the recursion depth (any `fuel ≥ n`
is enough, and the result is fuel-independent in that range). -/
def natDigitsAux : Nat → Nat → List Char
  | 0, n => [digitChar n]
  | fuel + 1, n =>
    if n < 10 then [digitChar n]
    else natDigitsAux fuel (n / 10) ++ [digitChar (n % 10)]

/-- The decimal digit string of a natural number, most significant first. -/
def natDigits (n : Nat) : List Char := natDigitsAux n n

/-- Reads a decimal digit string back into a natural number. -/
def natParse (l : List Char) : Nat := l.foldl (fun acc c => acc * 10 + digitVal c) 0

/-- The decimal literal of an integer, as `JSON.stringify` prints it. -/
def intChars (i : Int) : List Char :=
  if i < 0 then '-' :: natDigits i.natAbs else natDigits i.natAbs

/-- The escape sequence `JSON.stringify` emits for one string character. -/
def escapeChar (c : Char) : List Char :=
  if c = '"' then ['\\', '"']
  else if c = '\\' then ['\\', '\\']
  else if c = '\x08' then ['\\', 'b']
  else if c = '\t' then ['\\', 't']
  else if c = '\n' then ['\\', 'n']
  else if c = '\x0c' then ['\\', 'f']
  else if c = '\r' then ['\\', 'r']
  else if c.toNat < 32 then ['\\', 'u', '0', '0', hexChar (c.toNat / 16), hexChar (c.toNat % 16)]
  else [c]

/-- The escaped body of a string literal. -/
def escBody (cs : List Char) : List Char := cs.foldr (fun c acc => escapeChar c ++ acc) []

/-- A complete JSON string literal, quotes included. -/
def strChars (s : String) : List Char := '"' :: (escBody s.data ++ ['"'])

mutual

/-- Model of `JSON.stringify` (no indentation), as a character list. -/
def stringifyChars : Json → List Char
  | .num i => intChars i
  | .str s => strChars s
  | .null => ['n', 'u', '\x6c', 'l']
  | .bool true => ['t', '\x72', 'u', 'e']
  | .bool false => ['f', '\x61', 'l', 's', 'e']
  | .arr [] => ['[', ']']
  | .arr (x :: xs) => '[' :: (stringifyChars x ++ (stringifyArrTail xs ++ [']']))
  | .obj [] => ['\x7b', '\x7d']
  | .obj ((k, v) :: kvs) =>
      '\x7b' :: (strChars k ++ ':' :: (stringifyChars v ++ (stringifyObjTail kvs ++ ['\x7d'])))
termination_by structural x => x

/-- Comma-joined stringification of the remaining array elements. -/
def stringifyArrTail : List Json → List Char
  | [] => []
  | x :: xs => ',' :: (stringifyChars x ++ stringifyArrTail xs)
termination_by structural l => l

/-- Comma-joined stringification of the remaining object members. -/
def stringifyObjTail : List (String × Json) → List Char
  | [] => []
  | (k, v) :: kvs => ',' :: (strChars k ++ ':' :: (stringifyChars v ++ stringifyObjTail kvs))
termination_by structural l => l

end

/-- Model of `JSON.stringify` on a JSON value. -/
def stringify (j : Json) : String := String.mk (stringifyChars j)

/-- The whitespace `JSON.parse` skips between tokens. -/
def isWsJson (c : Char) : Bool := c = ' ' || c = '\t' || c = '\n' || c = '\r'

/-- Skips insignificant whitespace. -/
def skipWs (l : List Char) : List Char := l.dropWhile isWsJson

/-- The value of a hexadecimal digit character, if it is one. -/
def hexVal (c : Char) : Option Nat :=
  if 48 ≤ c.toNat ∧ c.toNat ≤ 57 then some (c.toNat - 48)
  else if 97 ≤ c.toNat ∧ c.toNat ≤ 102 then some (c.toNat - 87)
  else if 65 ≤ c.toNat ∧ c.toNat ≤ 70 then some (c.toNat - 55)
  else none

/-- The character denoted by a single-letter escape after `\`. -/
def unescapeChar (c : Char) : Option Char :=
  if c = '"' then some '"'
  else if c = '\\' then some '\\'
  else if c = '/' then some '/'
  else if c = 'b' then some '\x08'
  else if c = 'f' then some '\x0c'
  else if c = 'n' then some '\n'
  else if c = 'r' then some '\r'
  else if c = 't' then some '\t'
  else none

/-- Parses the body of a JSON string literal, the opening quote already
consumed; returns the decoded characters and the input after the closing
quote. -/
def parseStringBody : List Char → Option (List Char × List Char)
  | [] => none
  | c :: rest =>
    if c = '"' then some ([], rest)
    else if c = '\\' then
      match rest with
      | [] => none
      | e :: rest2 =>
        if e = 'u' then
          match rest2 with
          | a :: b :: c2 :: d :: rest3 =>
            match hexVal a, hexVal b, hexVal c2, hexVal d with
            | some h1, some h2, some h3, some h4 =>
              match parseStringBody rest3 with
              | some (cs, r) =>
                  some (Char.ofNat (((h1 * 16 + h2) * 16 + h3) * 16 + h4) :: cs, r)
              | none => none
            | _, _, _, _ => none
          | _ => none
        else
          match unescapeChar e with
          | some u =>
            match parseStringBody rest2 with
            | some (cs, r) => some (u :: cs, r)
            | none => none
          | none => none
    else if c.toNat < 32 then none
    else
      match parseStringBody rest with
      | some (cs, r) => some (c :: cs, r)
      | none => none

/-- Parses the digit run of a JSON number, rejecting a redundant leading
zero. -/
def parseNatPart (l : List Char) : Option (Nat × List Char) :=
  let digits := l.takeWhile isDigitC
  if digits = [] then none
  else if 1 < digits.length ∧ digits.headD '0' = '0' then none
  else some (natParse digits, l.dropWhile isDigitC)

/-- Fractional and exponent parts denote non-integer doubles, which are
outside the integer number model; such literals are not parsed. -/
def numTailOk (l : List Char) : Bool :=
  match l with
  | [] => true
  | c :: _ => !(c = '.' || c = 'e' || c = 'E')

/-- Parses a JSON number literal (integer-valued in this model). -/
def parseNumber (l : List Char) : Option (Json × List Char) :=
  match l with
  | [] => none
  | c :: rest =>
    if c = '-' then
      match parseNatPart rest with
      | some (n, r) => if numTailOk r then some (.num (-(n : Int)), r) else none
      | none => none
    else
      match parseNatPart (c :: rest) with
      | some (n, r) => if numTailOk r then some (.num (n : Int), r) else none
      | none => none

mutual

/-- Parses one JSON value; `fuel` bounds the recursion depth. -/
def parseVal : Nat → List Char → Option (Json × List Char)
  | 0, _ => none
  | fuel + 1, l =>
    match skipWs l with
    | [] => none
    | c :: rest =>
      if c = 'n' then
        match rest with
        | c1 :: c2 :: c3 :: r =>
            if c1 = 'u' ∧ c2 = 'l' ∧ c3 = 'l' then some (.null, r) else none
        | _ => none
      else if c = 't' then
        match rest with
        | c1 :: c2 :: c3 :: r =>
            if c1 = 'r' ∧ c2 = 'u' ∧ c3 = 'e' then some (.bool true, r) else none
        | _ => none
      else if c = 'f' then
        match rest with
        | c1 :: c2 :: c3 :: c4 :: r =>
            if c1 = 'a' ∧ c2 = 'l' ∧ c3 = 's' ∧ c4 = 'e' then some (.bool false, r) else none
        | _ => none
      else if c = '"' then
        match parseStringBody rest with
        | some (cs, r) => some (.str (String.mk cs), r)
        | none => none
      else if c = '[' then
        match skipWs rest with
        | c1 :: r1 =>
          if c1 = ']' then some (.arr [], r1)
          else
            match parseElems fuel rest with
            | some (xs, r) => some (.arr xs, r)
            | none => none
        | [] => none
      else if c = '\x7b' then
        match skipWs rest with
        | c1 :: r1 =>
          if c1 = '\x7d' then some (.obj [], r1)
          else
            match parseMembers fuel rest with
            | some (kvs, r) => some (.obj kvs, r)
            | none => none
        | [] => none
      else if c = '-' ∨ isDigitC c then parseNumber (c :: rest)
      else none
termination_by structural fuel _ => fuel

/-- Parses the comma-separated elements of a nonempty array, up to and
including the closing bracket. -/
def parseElems : Nat → List Char → Option (List Json × List Char)
  | 0, _ => none
  | fuel + 1, l =>
    match parseVal fuel l with
    | some (v, r) =>
      match skipWs r with
      | c :: r2 =>
        if c = ',' then
          match parseElems fuel r2 with
          | some (vs, r3) => some (v :: vs, r3)
          | none => none
        else if c = ']' then some ([v], r2)
        else none
      | [] => none
    | none => none
termination_by structural fuel _ => fuel

/-- Parses the comma-separated members of a nonempty object, up to and
including the closing brace. -/
def parseMembers : Nat → List Char → Option (List (String × Json) × List Char)
  | 0, _ => none
  | fuel + 1, l =>
    match skipWs l with
    | c :: r =>
      if c = '"' then
        match parseStringBody r with
        | some (ks, r2) =>
          match skipWs r2 with
          | c2 :: r3 =>
            if c2 = ':' then
              match parseVal fuel r3 with
              | some (v, r4) =>
                match skipWs r4 with
                | c3 :: r5 =>
                  if c3 = ',' then
                    match parseMembers fuel r5 with
                    | some (kvs, r6) => some ((String.mk ks, v) :: kvs, r6)
                    | none => none
                  else if c3 = '\x7d' then some ([(String.mk ks, v)], r5)
                  else none
                | [] => none
              | none => none
            else none
          | [] => none
        | none => none
      else none
    | [] => none
termination_by structural fuel _ => fuel

end

/-- Model of `JSON.parse`: parse one value and require only whitespace to
follow; the recursion budget `2·|s| + 2` exceeds any possible nesting
depth of the input. -/
def jsonParse (s : String) : Option Json :=
  match parseVal (2 * s.length + 2) s.data with
  | some (v, r) => if skipWs r = [] then some v else none
  | none => none

/-- `parseValue` from src/unnamed/part_004: trim, try `JSON.parse`, fall back
to the trimmed text itself. -/
def parseValue (value : String) : Json :=
  match jsonParse (jsTrim value) with
  | some v => v
  | none => .str (jsTrim value)

/-! ### Decimal printing and parsing round trip -/

theorem digitVal_digitChar (n : Nat) (h : n < 10) : digitVal (digitChar n) = n := by
  interval_cases n <;> rfl

theorem isDigitC_digitChar (n : Nat) : isDigitC (digitChar n) = true := by
  unfold digitChar
  split <;> rfl

theorem digitChar_ne_zero (n : Nat) (h1 : 1 ≤ n) (h2 : n ≤ 9) : digitChar n ≠ '0' := by
  interval_cases n <;> decide

theorem natDigitsAux_irrel (fuel : Nat) : ∀ fuel2 n, n ≤ fuel → n ≤ fuel2 →
    natDigitsAux fuel n = natDigitsAux fuel2 n := by
  induction fuel with
  | zero =>
    intro fuel2 n h1 _
    interval_cases n
    cases fuel2 with
    | zero => rfl
    | succ f2 => simp [natDigitsAux]
  | succ f ih =>
    intro fuel2 n h1 h2
    by_cases hn : n < 10
    · cases fuel2 with
      | zero =>
        interval_cases n
        simp [natDigitsAux]
      | succ f2 => simp [natDigitsAux, hn]
    · cases fuel2 with
      | zero => omega
      | succ f2 =>
        simp only [natDigitsAux, if_neg hn]
        rw [ih f2 (n / 10) (by omega) (by omega)]

theorem natDigits_lt (n : Nat) (h : n < 10) : natDigits n = [digitChar n] := by
  unfold natDigits
  cases n with
  | zero => rfl
  | succ k => simp [natDigitsAux, h]

theorem natDigits_ge (n : Nat) (h : ¬ n < 10) :
    natDigits n = natDigits (n / 10) ++ [digitChar (n % 10)] := by
  unfold natDigits
  cases hn : n with
  | zero => omega
  | succ k =>
    show natDigitsAux (k + 1) (k + 1) = _
    simp only [natDigitsAux, if_neg (hn ▸ h)]
    rw [natDigitsAux_irrel k ((k + 1) / 10) ((k + 1) / 10) (by omega) (by omega)]

theorem natDigits_ne_nil (n : Nat) : natDigits n ≠ [] := by
  by_cases h : n < 10
  · rw [natDigits_lt n h]; simp
  · rw [natDigits_ge n h]; simp

theorem natDigits_all_digit (n : Nat) : ∀ c ∈ natDigits n, isDigitC c = true := by
  induction n using Nat.strong_induction_on with
  | _ n ih =>
    by_cases h : n < 10
    · rw [natDigits_lt n h]
      intro c hc
      rw [List.mem_singleton] at hc
      subst hc
      exact isDigitC_digitChar n
    · rw [natDigits_ge n h]
      intro c hc
      rcases List.mem_append.mp hc with hm | hm
      · exact ih (n / 10) (Nat.div_lt_self (by omega) (by omega)) c hm
      · rw [List.mem_singleton] at hm
        subst hm
        exact isDigitC_digitChar _

theorem natParse_append_digit (l : List Char) (c : Char) :
    natParse (l ++ [c]) = natParse l * 10 + digitVal c := by
  unfold natParse
  rw [List.foldl_append]
  rfl

theorem natParse_natDigits (n : Nat) : natParse (natDigits n) = n := by
  induction n using Nat.strong_induction_on with
  | _ n ih =>
    by_cases h : n < 10
    · rw [natDigits_lt n h]
      show 0 * 10 + digitVal (digitChar n) = n
      rw [digitVal_digitChar n h]
      omega
    · rw [natDigits_ge n h, natParse_append_digit,
        ih (n / 10) (Nat.div_lt_self (by omega) (by omega)),
        digitVal_digitChar (n % 10) (Nat.mod_lt _ (by omega))]
      omega

theorem headD_append_of_ne_nil (l₁ l₂ : List Char) (d : Char) (h : l₁ ≠ []) :
    (l₁ ++ l₂).headD d = l₁.headD d := by
  cases l₁ with
  | nil => exact absurd rfl h
  | cons c t => rfl

theorem natDigits_headD_ne_zero (n : Nat) (h : 1 ≤ n) :
    (natDigits n).headD '0' ≠ '0' := by
  induction n using Nat.strong_induction_on with
  | _ n ih =>
    by_cases hlt : n < 10
    · rw [natDigits_lt n hlt]
      exact digitChar_ne_zero n h (by omega)
    · rw [natDigits_ge n hlt,
        headD_append_of_ne_nil _ _ _ (natDigits_ne_nil (n / 10))]
      exact ih (n / 10) (Nat.div_lt_self (by omega) (by omega)) (by omega)

theorem natDigits_length_eq_one (n : Nat) (h : n < 10) :
    (natDigits n).length = 1 := by
  rw [natDigits_lt n h]
  rfl

/-- The left part is taken whole by `takeWhile` when it entirely satisfies the
predicate and the right part starts with a failing character. -/
theorem takeWhile_append_all (p : Char → Bool) (l₁ l₂ : List Char)
    (h1 : ∀ c ∈ l₁, p c = true)
    (h2 : l₂ = [] ∨ ∃ c t, l₂ = c :: t ∧ p c = false) :
    (l₁ ++ l₂).takeWhile p = l₁ := by
  induction l₁ with
  | nil =>
    rcases h2 with rfl | ⟨c, t, rfl, hc⟩
    · rfl
    · simp [List.takeWhile_cons, hc]
  | cons c t ih =>
    have hc := h1 c (List.mem_cons_self c t)
    simp only [List.cons_append, List.takeWhile_cons, hc, if_true]
    rw [ih (fun x hx => h1 x (List.mem_cons_of_mem c hx))]

theorem dropWhile_append_all (p : Char → Bool) (l₁ l₂ : List Char)
    (h1 : ∀ c ∈ l₁, p c = true)
    (h2 : l₂ = [] ∨ ∃ c t, l₂ = c :: t ∧ p c = false) :
    (l₁ ++ l₂).dropWhile p = l₂ := by
  induction l₁ with
  | nil =>
    rcases h2 with rfl | ⟨c, t, rfl, hc⟩
    · rfl
    · simp [List.dropWhile_cons, hc]
  | cons c t ih =>
    have hc := h1 c (List.mem_cons_self c t)
    simp only [List.cons_append, List.dropWhile_cons, hc]
    exact ih (fun x hx => h1 x (List.mem_cons_of_mem c hx))

/-- Characters that may legally follow a complete JSON value in the proofs
below: end of input, a comma, or a closing bracket or brace. -/
def sepOk (l : List Char) : Bool :=
  match l with
  | [] => true
  | c :: _ => c = ',' || c = ']' || c = '\x7d'

theorem sepOk_head_cases (l : List Char) (h : sepOk l = true) :
    l = [] ∨ ∃ t, l = ',' :: t ∨ l = ']' :: t ∨ l = '\x7d' :: t := by
  cases l with
  | nil => exact Or.inl rfl
  | cons c t =>
    right
    refine ⟨t, ?_⟩
    simp only [sepOk, Bool.or_eq_true, decide_eq_true_eq] at h
    rcases h with (h | h) | h <;> subst h
    · exact Or.inl rfl
    · exact Or.inr (Or.inl rfl)
    · exact Or.inr (Or.inr rfl)

theorem sepOk_not_digit (l : List Char) (h : sepOk l = true) :
    l = [] ∨ ∃ c t, l = c :: t ∧ isDigitC c = false := by
  rcases sepOk_head_cases l h with rfl | ⟨t, h | h | h⟩
  · exact Or.inl rfl
  all_goals subst h
  · exact Or.inr ⟨',', t, rfl, by decide⟩
  · exact Or.inr ⟨']', t, rfl, by decide⟩
  · exact Or.inr ⟨'\x7d', t, rfl, by decide⟩

theorem numTailOk_of_sepOk (l : List Char) (h : sepOk l = true) :
    numTailOk l = true := by
  rcases sepOk_head_cases l h with rfl | ⟨t, h | h | h⟩ <;> first | rfl | (subst h; rfl)

theorem parseNatPart_natDigits (n : Nat) (rest : List Char)
    (hrest : rest = [] ∨ ∃ c t, rest = c :: t ∧ isDigitC c = false) :
    parseNatPart (natDigits n ++ rest) = some (n, rest) := by
  unfold parseNatPart
  rw [takeWhile_append_all isDigitC _ _ (natDigits_all_digit n) hrest,
    dropWhile_append_all isDigitC _ _ (natDigits_all_digit n) hrest]
  rw [if_neg (by simpa using natDigits_ne_nil n)]
  rw [if_neg ?_, natParse_natDigits]
  rintro ⟨hlen, hhead⟩
  rcases Nat.eq_zero_or_pos n with rfl | hpos
  · rw [natDigits_length_eq_one 0 (by omega)] at hlen
    omega
  · exact natDigits_headD_ne_zero n hpos hhead

theorem isDigitC_bounds (c : Char) (h : isDigitC c = true) :
    48 ≤ c.toNat ∧ c.toNat ≤ 57 := by
  simpa [isDigitC] using h

theorem isDigitC_ne (c : Char) (h : isDigitC c = true) (d : Char)
    (hd : d.toNat < 48 ∨ 57 < d.toNat) : c ≠ d := by
  have hb := isDigitC_bounds c h
  intro he
  subst he
  omega

theorem isWsJson_eq_false (c : Char) (h1 : c ≠ ' ') (h2 : c ≠ '\t') (h3 : c ≠ '\n')
    (h4 : c ≠ '\r') : isWsJson c = false := by
  simp [isWsJson, h1, h2, h3, h4]

theorem isDigitC_not_ws (c : Char) (h : isDigitC c = true) : isWsJson c = false :=
  isWsJson_eq_false c (isDigitC_ne c h ' ' (by decide)) (isDigitC_ne c h '\t' (by decide))
    (isDigitC_ne c h '\n' (by decide)) (isDigitC_ne c h '\r' (by decide))

theorem skipWs_cons (c : Char) (l : List Char) (h : isWsJson c = false) :
    skipWs (c :: l) = c :: l := by
  simp [skipWs, List.dropWhile_cons, h]

theorem natDigits_head (n : Nat) :
    ∃ c t, natDigits n = c :: t ∧ isDigitC c = true := by
  cases hnd : natDigits n with
  | nil => exact absurd hnd (natDigits_ne_nil n)
  | cons c t =>
    exact ⟨c, t, rfl, natDigits_all_digit n c (hnd ▸ List.mem_cons_self c t)⟩

theorem parseNumber_intChars (i : Int) (rest : List Char) (hsep : sepOk rest = true) :
    parseNumber (intChars i ++ rest) = some (.num i, rest) := by
  have hdig := sepOk_not_digit rest hsep
  have htail := numTailOk_of_sepOk rest hsep
  by_cases hneg : i < 0
  · have hic : intChars i = '-' :: natDigits i.natAbs := by
      unfold intChars
      rw [if_pos hneg]
    rw [hic]
    show parseNumber ('-' :: (natDigits i.natAbs ++ rest)) = _
    simp only [parseNumber, if_pos rfl]
    rw [parseNatPart_natDigits _ _ hdig]
    simp only [htail, if_true]
    have : -((i.natAbs : Nat) : Int) = i := by omega
    rw [this]
  · have hic : intChars i = natDigits i.natAbs := by
      unfold intChars
      rw [if_neg hneg]
    obtain ⟨c, t, hct, hcd⟩ := natDigits_head i.natAbs
    rw [hic, hct]
    show parseNumber (c :: (t ++ rest)) = _
    simp only [parseNumber]
    rw [if_neg (isDigitC_ne c hcd '-' (by decide))]
    have hre : c :: (t ++ rest) = (c :: t) ++ rest := rfl
    rw [hre, ← hct, parseNatPart_natDigits _ _ hdig]
    simp only [htail, if_true]
    have : ((i.natAbs : Nat) : Int) = i := by omega
    rw [this]

theorem hexVal_hexChar (n : Nat) (h : n < 16) : hexVal (hexChar n) = some n := by
  interval_cases n <;> decide

theorem string_mk_data (s : String) : String.mk s.data = s := rfl

theorem parseStringBody_escBody (cs : List Char) (rest : List Char) :
    parseStringBody (escBody cs ++ '"' :: rest) = some (cs, rest) := by
  induction cs with
  | nil =>
    show parseStringBody ('"' :: rest) = some ([], rest)
    rw [parseStringBody.eq_def]
    simp
  | cons c cs ih =>
    have hesc : escBody (c :: cs) ++ '"' :: rest =
        escapeChar c ++ (escBody cs ++ '"' :: rest) := by
      show (escapeChar c ++ escBody cs) ++ '"' :: rest = _
      rw [List.append_assoc]
    rw [hesc]
    unfold escapeChar
    split_ifs with h1 h2 h3 h4 h5 h6 h7 h8
    · subst h1
      rw [parseStringBody.eq_def]
      simp [unescapeChar, ih]
    · subst h2
      rw [parseStringBody.eq_def]
      simp [unescapeChar, ih]
    · subst h3
      rw [parseStringBody.eq_def]
      simp [unescapeChar, ih]
    · subst h4
      rw [parseStringBody.eq_def]
      simp [unescapeChar, ih]
    · subst h5
      rw [parseStringBody.eq_def]
      simp [unescapeChar, ih]
    · subst h6
      rw [parseStringBody.eq_def]
      simp [unescapeChar, ih]
    · subst h7
      rw [parseStringBody.eq_def]
      simp [unescapeChar, ih]
    · have hhi := hexVal_hexChar (c.toNat / 16) (by omega)
      have hlo := hexVal_hexChar (c.toNat % 16) (by omega)
      have harith : ((0 * 16 + 0) * 16 + c.toNat / 16) * 16 + c.toNat % 16 = c.toNat := by
        omega
      have harith2 : c.toNat / 16 * 16 + c.toNat % 16 = c.toNat := by omega
      have h0 : hexVal '0' = some 0 := by decide
      rw [parseStringBody.eq_def]
      simp [h0, hhi, hlo, ih, harith, harith2, Char.ofNat_toNat]
    · have hq : ¬ c = '"' := h1
      have hb : ¬ c = '\\' := h2
      have hc32 : ¬ c.toNat < 32 := h8
      rw [parseStringBody.eq_def]
      simp [hq, hb, hc32, ih]

theorem isDigitC_not_jsws (c : Char) (h : isDigitC c = true) : isJsWs c = false := by
  have h1 := isDigitC_ne c h ' ' (by decide)
  have h2 := isDigitC_ne c h '\t' (by decide)
  have h3 := isDigitC_ne c h '\n' (by decide)
  have h4 := isDigitC_ne c h '\r' (by decide)
  have h5 := isDigitC_ne c h '\x0b' (by decide)
  have h6 := isDigitC_ne c h '\x0c' (by decide)
  simp [isJsWs, h1, h2, h3, h4, h5, h6]

theorem stringify_head (x : Json) :
    ∃ c t, stringifyChars x = c :: t ∧ isWsJson c = false ∧ c ≠ ']' ∧ c ≠ '\x7d' ∧
      isJsWs c = false := by
  cases x with
  | null => exact ⟨'n', _, rfl, by decide, by decide, by decide, by decide⟩
  | bool b =>
    cases b with
    | false => exact ⟨'f', _, rfl, by decide, by decide, by decide, by decide⟩
    | true => exact ⟨'t', _, rfl, by decide, by decide, by decide, by decide⟩
  | num i =>
    show ∃ c t, intChars i = c :: t ∧ _
    unfold intChars
    split
    · exact ⟨'-', _, rfl, by decide, by decide, by decide, by decide⟩
    · obtain ⟨c, t, hct, hcd⟩ := natDigits_head i.natAbs
      exact ⟨c, t, hct, isDigitC_not_ws c hcd,
        isDigitC_ne c hcd ']' (by decide), isDigitC_ne c hcd '\x7d' (by decide),
        isDigitC_not_jsws c hcd⟩
  | str s => exact ⟨'"', _, rfl, by decide, by decide, by decide, by decide⟩
  | arr xs =>
    cases xs with
    | nil => exact ⟨'[', _, rfl, by decide, by decide, by decide, by decide⟩
    | cons y ys => exact ⟨'[', _, rfl, by decide, by decide, by decide, by decide⟩
  | obj kvs =>
    cases kvs with
    | nil => exact ⟨'\x7b', _, rfl, by decide, by decide, by decide, by decide⟩
    | cons kv kvs =>
      obtain ⟨k, v⟩ := kv
      exact ⟨'\x7b', _, rfl, by decide, by decide, by decide, by decide⟩

theorem stringify_length_pos (x : Json) : 1 ≤ (stringifyChars x).length := by
  obtain ⟨c, t, hct, -, -, -, -⟩ := stringify_head x
  rw [hct]
  simp

theorem strChars_length (k : String) :
    (strChars k).length = (escBody k.data).length + 2 := by
  simp [strChars]

/-- Dispatch lemma: on a nonempty input whose head begins a number literal,
`parseVal` defers to `parseNumber`. -/
theorem parseVal_number_head (f : Nat) (c : Char) (l : List Char)
    (hc : c = '-' ∨ isDigitC c = true) :
    parseVal (f + 1) (c :: l) = parseNumber (c :: l) := by
  have hws : isWsJson c = false := by
    rcases hc with rfl | hd
    · decide
    · exact isDigitC_not_ws c hd
  have hn : ¬ c = 'n' := by
    rcases hc with rfl | hd
    · decide
    · exact isDigitC_ne c hd 'n' (by decide)
  have ht : ¬ c = 't' := by
    rcases hc with rfl | hd
    · decide
    · exact isDigitC_ne c hd 't' (by decide)
  have hf : ¬ c = 'f' := by
    rcases hc with rfl | hd
    · decide
    · exact isDigitC_ne c hd 'f' (by decide)
  have hq : ¬ c = '"' := by
    rcases hc with rfl | hd
    · decide
    · exact isDigitC_ne c hd '"' (by decide)
  have hbk : ¬ c = '[' := by
    rcases hc with rfl | hd
    · decide
    · exact isDigitC_ne c hd '[' (by decide)
  have hbr : ¬ c = '\x7b' := by
    rcases hc with rfl | hd
    · decide
    · exact isDigitC_ne c hd '\x7b' (by decide)
  rw [parseVal.eq_def]
  simp only [skipWs_cons c l hws]
  simp only [if_neg hn, if_neg ht, if_neg hf, if_neg hq, if_neg hbk, if_neg hbr]
  rw [if_pos ?_]
  rcases hc with rfl | hd
  · exact Or.inl rfl
  · exact Or.inr hd

theorem stringifyArrTail_cons_length (y : Json) (ys : List Json) :
    (stringifyArrTail (y :: ys)).length =
      1 + (stringifyChars y).length + (stringifyArrTail ys).length := by
  simp [stringifyArrTail]
  omega

theorem stringifyObjTail_cons_length (k2 : String) (v2 : Json) (kvs : List (String × Json)) :
    (stringifyObjTail ((k2, v2) :: kvs)).length =
      2 + (strChars k2).length + (stringifyChars v2).length + (stringifyObjTail kvs).length := by
  simp [stringifyObjTail]
  omega

/-- Printer–parser round trip for the JSON model, proved by induction on the
parser's fuel: parsing the stringification of any value consumes exactly it
and leaves the rest, provided the fuel exceeds the printed length and the
following character cannot extend the value. -/
theorem parse_stringify_roundtrip (fuel : Nat) :
    (∀ (x : Json) (rest : List Char), (stringifyChars x).length < fuel →
      sepOk rest = true →
      parseVal fuel (stringifyChars x ++ rest) = some (x, rest)) ∧
    (∀ (x : Json) (xs : List Json) (rest : List Char),
      (stringifyChars x).length + (stringifyArrTail xs).length + 1 < fuel →
      parseElems fuel (stringifyChars x ++ (stringifyArrTail xs ++ ']' :: rest)) =
        some (x :: xs, rest)) ∧
    (∀ (k : String) (v : Json) (kvs : List (String × Json)) (rest : List Char),
      (strChars k).length + (stringifyChars v).length + (stringifyObjTail kvs).length + 1
          < fuel →
      parseMembers fuel
        (strChars k ++ (':' :: (stringifyChars v ++ (stringifyObjTail kvs ++ '\x7d' :: rest)))) =
        some ((k, v) :: kvs, rest)) := by
  induction fuel with
  | zero =>
    refine ⟨fun x rest h _ => absurd h (by omega), fun x xs rest h => absurd h (by omega),
      fun k v kvs rest h => absurd h (by omega)⟩
  | succ f ih =>
    obtain ⟨ihv, ihe, ihm⟩ := ih
    refine ⟨?_, ?_, ?_⟩
    · intro x rest hlen hsep
      cases x with
      | null =>
        have hx : stringifyChars Json.null ++ rest = 'n' :: 'u' :: 'l' :: 'l' :: rest := rfl
        rw [hx, parseVal.eq_def]
        simp [skipWs_cons, isWsJson]
      | bool b =>
        cases b with
        | true =>
          have hx : stringifyChars (Json.bool true) ++ rest =
              't' :: 'r' :: 'u' :: 'e' :: rest := rfl
          rw [hx, parseVal.eq_def]
          simp [skipWs_cons, isWsJson]
        | false =>
          have hx : stringifyChars (Json.bool false) ++ rest =
              'f' :: 'a' :: 'l' :: 's' :: 'e' :: rest := rfl
          rw [hx, parseVal.eq_def]
          simp [skipWs_cons, isWsJson]
      | num i =>
        have hsplit := parseNumber_intChars i rest hsep
        show parseVal (f + 1) (intChars i ++ rest) = some (Json.num i, rest)
        by_cases hneg : i < 0
        · have h1 : intChars i = '-' :: natDigits i.natAbs := by
            unfold intChars
            rw [if_pos hneg]
          rw [h1, List.cons_append, parseVal_number_head f '-' _ (Or.inl rfl),
            ← List.cons_append, ← h1]
          exact hsplit
        · have h1 : intChars i = natDigits i.natAbs := by
            unfold intChars
            rw [if_neg hneg]
          obtain ⟨c, t, hct, hcd⟩ := natDigits_head i.natAbs
          rw [h1, hct, List.cons_append, parseVal_number_head f c _ (Or.inr hcd),
            ← List.cons_append, ← hct, ← h1]
          exact hsplit
      | str s =>
        have hx : stringifyChars (Json.str s) ++ rest =
            '"' :: (escBody s.data ++ '"' :: rest) := by
          show ('"' :: (escBody s.data ++ ['"'])) ++ rest = _
          simp [List.append_assoc]
        rw [hx, parseVal.eq_def]
        simp [skipWs_cons, isWsJson, parseStringBody_escBody, string_mk_data]
      | arr xs =>
        cases xs with
        | nil =>
          have hx : stringifyChars (Json.arr []) ++ rest = '[' :: ']' :: rest := rfl
          rw [hx, parseVal.eq_def]
          simp [skipWs_cons, isWsJson]
        | cons y ys =>
          have hx : stringifyChars (Json.arr (y :: ys)) ++ rest =
              '[' :: (stringifyChars y ++ (stringifyArrTail ys ++ ']' :: rest)) := by
            show ('[' :: (stringifyChars y ++ (stringifyArrTail ys ++ [']']))) ++ rest = _
            simp [List.append_assoc]
          have hlen2 : (stringifyChars y).length + (stringifyArrTail ys).length + 1 < f := by
            have he : stringifyChars (Json.arr (y :: ys)) =
                '[' :: (stringifyChars y ++ (stringifyArrTail ys ++ [']'])) := rfl
            rw [he] at hlen
            simp only [List.length_cons, List.length_append] at hlen
            omega
          rw [hx, parseVal.eq_def]
          obtain ⟨c, t, hct, hws, hnb, hnb2, -⟩ := stringify_head y
          have hskip : skipWs (stringifyChars y ++ (stringifyArrTail ys ++ ']' :: rest)) =
              c :: (t ++ (stringifyArrTail ys ++ ']' :: rest)) := by
            rw [hct, List.cons_append]
            exact skipWs_cons _ _ hws
          have hel := ihe y ys rest hlen2
          simp [skipWs_cons, isWsJson, hskip, hel, if_neg hnb]
      | obj kvs =>
        cases kvs with
        | nil =>
          have hx : stringifyChars (Json.obj []) ++ rest = '\x7b' :: '\x7d' :: rest := rfl
          rw [hx, parseVal.eq_def]
          simp [skipWs_cons, isWsJson]
        | cons kv kvs =>
          obtain ⟨k, v⟩ := kv
          have hx : stringifyChars (Json.obj ((k, v) :: kvs)) ++ rest =
              '\x7b' :: (strChars k ++
                (':' :: (stringifyChars v ++ (stringifyObjTail kvs ++ '\x7d' :: rest)))) := by
            show ('\x7b' :: (strChars k ++
              ':' :: (stringifyChars v ++ (stringifyObjTail kvs ++ ['\x7d'])))) ++ rest = _
            simp [List.append_assoc]
          have hlen2 : (strChars k).length + (stringifyChars v).length +
              (stringifyObjTail kvs).length + 1 < f := by
            have he : stringifyChars (Json.obj ((k, v) :: kvs)) =
                '\x7b' :: (strChars k ++
                  ':' :: (stringifyChars v ++ (stringifyObjTail kvs ++ ['\x7d']))) := rfl
            rw [he] at hlen
            simp only [List.length_cons, List.length_append] at hlen
            omega
          rw [hx, parseVal.eq_def]
          have hskip : skipWs (strChars k ++
              (':' :: (stringifyChars v ++ (stringifyObjTail kvs ++ '\x7d' :: rest)))) =
              '"' :: ((escBody k.data ++ ['"']) ++
                (':' :: (stringifyChars v ++ (stringifyObjTail kvs ++ '\x7d' :: rest)))) := by
            exact skipWs_cons _ _ (by decide)
          have hm := ihm k v kvs rest hlen2
          simp [skipWs_cons, isWsJson, hskip, hm]
    · intro x xs rest hlen
      have hsep2 : sepOk (stringifyArrTail xs ++ ']' :: rest) = true := by
        cases xs with
        | nil => rfl
        | cons y ys => rfl
      have hv := ihv x (stringifyArrTail xs ++ ']' :: rest)
        (by have := stringify_length_pos x; omega) hsep2
      rw [parseElems.eq_def]
      simp only [hv]
      cases xs with
      | nil =>
        have hskip : skipWs (stringifyArrTail [] ++ ']' :: rest) = ']' :: rest :=
          skipWs_cons _ _ (by decide)
        rw [hskip]
        simp
      | cons y ys =>
        have hskip : skipWs (stringifyArrTail (y :: ys) ++ ']' :: rest) =
            ',' :: ((stringifyChars y ++ stringifyArrTail ys) ++ ']' :: rest) :=
          skipWs_cons _ _ (by decide)
        rw [hskip]
        have hlen3 : (stringifyChars y).length + (stringifyArrTail ys).length + 1 < f := by
          have h4 := stringifyArrTail_cons_length y ys
          have h5 := stringify_length_pos x
          omega
        have hel := ihe y ys rest hlen3
        simp [List.append_assoc, hel]
    · intro k v kvs rest hlen
      rw [parseMembers.eq_def]
      have hskip : skipWs (strChars k ++
          (':' :: (stringifyChars v ++ (stringifyObjTail kvs ++ '\x7d' :: rest)))) =
          '"' :: (escBody k.data ++ '"' ::
            (':' :: (stringifyChars v ++ (stringifyObjTail kvs ++ '\x7d' :: rest)))) := by
        rw [show strChars k ++
            (':' :: (stringifyChars v ++ (stringifyObjTail kvs ++ '\x7d' :: rest))) =
            '"' :: (escBody k.data ++ '"' ::
              (':' :: (stringifyChars v ++ (stringifyObjTail kvs ++ '\x7d' :: rest)))) from by
          simp [strChars, List.append_assoc]]
        exact skipWs_cons _ _ (by decide)
      have hsb := parseStringBody_escBody k.data
        (':' :: (stringifyChars v ++ (stringifyObjTail kvs ++ '\x7d' :: rest)))
      have hsk2 : skipWs (':' :: (stringifyChars v ++ (stringifyObjTail kvs ++ '\x7d' :: rest))) =
          ':' :: (stringifyChars v ++ (stringifyObjTail kvs ++ '\x7d' :: rest)) :=
        skipWs_cons _ _ (by decide)
      have hsck := strChars_length k
      have hsep2 : sepOk (stringifyObjTail kvs ++ '\x7d' :: rest) = true := by
        cases kvs with
        | nil => rfl
        | cons kv2 kvs2 =>
          obtain ⟨k2, v2⟩ := kv2
          rfl
      have hv := ihv v (stringifyObjTail kvs ++ '\x7d' :: rest) (by omega) hsep2
      simp only [hskip, hsb, hsk2, hv]
      cases kvs with
      | nil =>
        have hskip3 : skipWs (stringifyObjTail [] ++ '\x7d' :: rest) = '\x7d' :: rest :=
          skipWs_cons _ _ (by decide)
        rw [hskip3]
        simp [string_mk_data]
      | cons kv2 kvs2 =>
        obtain ⟨k2, v2⟩ := kv2
        have hskip3 : skipWs (stringifyObjTail ((k2, v2) :: kvs2) ++ '\x7d' :: rest) =
            ',' :: ((strChars k2 ++ ':' :: (stringifyChars v2 ++ stringifyObjTail kvs2)) ++
              '\x7d' :: rest) :=
          skipWs_cons _ _ (by decide)
        rw [hskip3]
        have hlen3 : (strChars k2).length + (stringifyChars v2).length +
            (stringifyObjTail kvs2).length + 1 < f := by
          have h4 := stringifyObjTail_cons_length k2 v2 kvs2
          have h5 := stringify_length_pos v
          omega
        have hm := ihm k2 v2 kvs2 rest hlen3
        simp [List.append_assoc, hm, string_mk_data]

theorem natDigits_snoc (n : Nat) :
    ∃ init d, natDigits n = init ++ [d] ∧ isDigitC d = true := by
  by_cases h : n < 10
  · exact ⟨[], digitChar n, by rw [natDigits_lt n h]; rfl, isDigitC_digitChar n⟩
  · exact ⟨natDigits (n / 10), digitChar (n % 10), natDigits_ge n h, isDigitC_digitChar _⟩

theorem stringify_last (x : Json) :
    ∃ init c, stringifyChars x = init ++ [c] ∧ isJsWs c = false := by
  cases x with
  | null => exact ⟨['n', 'u', 'l'], 'l', rfl, by decide⟩
  | bool b =>
    cases b with
    | false => exact ⟨['f', 'a', 'l', 's'], 'e', rfl, by decide⟩
    | true => exact ⟨['t', 'r', 'u'], 'e', rfl, by decide⟩
  | num i =>
    show ∃ init c, intChars i = init ++ [c] ∧ _
    unfold intChars
    split
    · obtain ⟨init, d, hd, hdd⟩ := natDigits_snoc i.natAbs
      refine ⟨'-' :: init, d, ?_, isDigitC_not_jsws d hdd⟩
      rw [hd]
      rfl
    · obtain ⟨init, d, hd, hdd⟩ := natDigits_snoc i.natAbs
      exact ⟨init, d, hd, isDigitC_not_jsws d hdd⟩
  | str s =>
    exact ⟨'"' :: escBody s.data, '"', by show '"' :: (escBody s.data ++ ['"']) = _; rfl,
      by decide⟩
  | arr xs =>
    cases xs with
    | nil => exact ⟨['['], ']', rfl, by decide⟩
    | cons y ys =>
      refine ⟨'[' :: (stringifyChars y ++ stringifyArrTail ys), ']', ?_, by decide⟩
      show '[' :: (stringifyChars y ++ (stringifyArrTail ys ++ [']'])) = _
      simp [List.append_assoc]
  | obj kvs =>
    cases kvs with
    | nil => exact ⟨['\x7b'], '\x7d', rfl, by decide⟩
    | cons kv kvs =>
      obtain ⟨k, v⟩ := kv
      refine ⟨'\x7b' :: (strChars k ++ ':' :: (stringifyChars v ++ stringifyObjTail kvs)),
        '\x7d', ?_, by decide⟩
      show '\x7b' :: (strChars k ++ ':' :: (stringifyChars v ++
        (stringifyObjTail kvs ++ ['\x7d']))) = _
      simp [List.append_assoc]

theorem jsTrimChars_eq_self (l : List Char)
    (h1 : ∃ c t, l = c :: t ∧ isJsWs c = false)
    (h2 : ∃ init c, l = init ++ [c] ∧ isJsWs c = false) :
    jsTrimChars l = l := by
  obtain ⟨c, t, hct, hc⟩ := h1
  obtain ⟨init, d, hid, hd⟩ := h2
  unfold jsTrimChars
  have hdrop : l.dropWhile isJsWs = l := by
    rw [hct]
    simp [List.dropWhile_cons, hc]
  rw [hdrop]
  have hrev : l.reverse = d :: init.reverse := by
    rw [hid]
    simp
  rw [hrev]
  have hstep : List.dropWhile isJsWs (d :: init.reverse) = d :: init.reverse := by
    simp [List.dropWhile_cons, hd]
  rw [hstep, ← hrev, List.reverse_reverse]

theorem jsTrim_stringify (x : Json) : jsTrim (stringify x) = stringify x := by
  show String.mk (jsTrimChars (stringifyChars x)) = String.mk (stringifyChars x)
  congr 1
  refine jsTrimChars_eq_self _ ?_ ?_
  · obtain ⟨c, t, hct, -, -, -, hjs⟩ := stringify_head x
    exact ⟨c, t, hct, hjs⟩
  · exact stringify_last x

theorem jsonParse_stringify (x : Json) : jsonParse (stringify x) = some x := by
  unfold jsonParse
  have hfuel : (stringifyChars x).length < 2 * (stringify x).length + 2 := by
    have hs : (stringify x).length = (stringifyChars x).length := rfl
    omega
  have h := (parse_stringify_roundtrip (2 * (stringify x).length + 2)).1 x [] hfuel rfl
  rw [List.append_nil] at h
  rw [show (stringify x).data = stringifyChars x from rfl, h]
  rfl

/-- C6: `parseValue` is total: it returns the JSON parse of the trimmed text
when that parse succeeds and otherwise the trimmed text itself as a string;
consequently it maps the JSON literal of any representable value back to
that value. -/
theorem parseValue_total_and_roundtrip :
    (∀ s : String, (∃ v, jsonParse (jsTrim s) = some v ∧ parseValue s = v) ∨
      (jsonParse (jsTrim s) = none ∧ parseValue s = .str (jsTrim s)))
    ∧ (∀ x : Json, parseValue (stringify x) = x) := by
  constructor
  · intro s
    cases h : jsonParse (jsTrim s) with
    | none =>
      right
      refine ⟨rfl, ?_⟩
      unfold parseValue
      rw [h]
    | some v =>
      left
      refine ⟨v, rfl, ?_⟩
      unfold parseValue
      rw [h]
  · intro x
    unfold parseValue
    rw [jsTrim_stringify x, jsonParse_stringify x]

/-! ## JavaScript object model

JavaScript objects are ordered association lists; assignment to an existing
key updates the value in place, a new key is appended, and object spread
copies pairs with the same rule. -/

/-- JavaScript property assignment `obj[k] = v` on an ordered object. -/
def objSet : List (String × Json) → String → Json → List (String × Json)
  | [], k, v => [(k, v)]
  | (k', v') :: rest, k, v =>
    if k' = k then (k, v) :: rest else (k', v') :: objSet rest k v

/-- Spread-style folding of key/value pairs onto a base object, as in
`\x7b base..., ...pairs \x7d`: later keys override earlier values in place. -/
def objSpread (base : List (String × Json)) (pairs : List (String × Json)) :
    List (String × Json) :=
  pairs.foldl (fun acc kv => objSet acc kv.1 kv.2) base

/-- JavaScript property lookup on the ordered-object model. -/
def lookupJ : List (String × Json) → String → Option Json
  | [], _ => none
  | (k', v) :: rest, k => if k' = k then some v else lookupJ rest k

/-! ## Annotation Parser (src/unnamed/part_004) -/

/-- `parseArguments` from src/unnamed/part_004: split the argument text into
segments, split each segment on its first colon (segments without a colon
are silently dropped), trim both sides and parse the value side. -/
def parseArguments (argsStr : String) : List (String × Json) :=
  if jsTrim argsStr = "" then []
  else
    (splitArguments argsStr).foldl
      (fun result pair =>
        match pair.data.findIdx? (· = ':') with
        | none => result
        | some i =>
            objSet result (jsTrim (String.mk (pair.data.take i)))
              (parseValue (jsTrim (String.mk (pair.data.drop (i + 1))))))
      []

/-- A regex `\w` word character: ASCII letter, digit or underscore. -/
def isWordChar (c : Char) : Bool :=
  (65 ≤ c.toNat ∧ c.toNat ≤ 90) ∨ (97 ≤ c.toNat ∧ c.toNat ≤ 122) ∨ isDigitC c ∨ c = '_'

/-- List-level string-prefix test. -/
def startsWithChars : List Char → List Char → Bool
  | _, [] => true
  | [], _ :: _ => false
  | c :: cs, p :: ps => c = p && startsWithChars cs ps

/-- `parseAnnotation` from src/unnamed/part_004 (the name is shortened to
`parseAnnot` here): trim, strip the leading `@<prefix-identifier>.` (the
source builds a regex from the configured identifier, which therefore
matches literally), then match the anchored dot-all pattern of one
`<word>(<args>)` call; the result object is `_schematic_type` first, with
the parsed arguments spread after it. -/
def parseAnnot (ann : String) (annPre : String) :
    Except String (List (String × Json)) :=
  let cleaned := jsTrim ann
  let pat := "@" ++ annPre ++ "."
  let fmtErr := "Invalid annotation format: " ++ ann ++ ". Expected format: @" ++
    annPre ++ ".<type>(<args>)"
  if ¬ startsWithChars cleaned.data pat.data then
    .error ("Annotation must start with @" ++ annPre ++ ". Got: " ++ ann)
  else
    let withoutPre := cleaned.data.drop pat.data.length
    let word := withoutPre.takeWhile isWordChar
    let rest := withoutPre.dropWhile isWordChar
    if word.isEmpty then .error fmtErr
    else
      match rest with
      | '(' :: inner =>
        match inner.getLast? with
        | some c =>
          if c = ')' then
            .ok (objSpread [("_schematic_type", .str (String.mk word))]
              (parseArguments (String.mk inner.dropLast)))
          else .error fmtErr
        | none => .error fmtErr
      | _ => .error fmtErr

/-! ## Model Document and configuration (boundary shapes from §6) -/

/-- A model of the Prisma DMMF model node: only `name` and the optional
`documentation` string are consumed by this core. -/
structure PModel where
  name : String
  documentation : Option String
deriving Repr, DecidableEq

/-- The ordered collection of models. -/
structure PDatamodel where
  models : List PModel
deriving Repr, DecidableEq

/-- The Model Document (`DMMF.Document`), restricted to the facts the core
reads. -/
structure DMMFDocument where
  datamodel : PDatamodel
deriving Repr, DecidableEq

/-- The configuration surface (src/src/types/schematic.types.ts); the
`annotationPrefix` field is named `annotationPre` here. -/
structure SchematicConfig where
  databaseProvider : String
  autoIndexForeignKeys : Bool
  annotationPre : String
  stateFilePath : String
  outputPath : String
deriving Repr, DecidableEq

/-! ## Schema Validation Registry (src/src/schemas) -/

/-- One zod issue: the offending field's path and the violated constraint.
zod aggregates all issues of a parse into one error; this model reports the
first issue in shape-declaration order, which fails exactly when zod does. -/
structure ValidationIssue where
  path : String
  message : String
deriving Repr, DecidableEq

/-- The validated index record (`Index` from src/src/schemas/index.schema.ts);
`_schematic_type` is `schematicType` and `where` is `whereClause` here. -/
structure IndexRecord where
  schematicType : String
  model : String
  name : Option String
  fields : List String
  type : Option String
  whereClause : Option String
deriving Repr, DecidableEq

/-- The six keys of the closed index contract. -/
def indexKeys : List String := ["_schematic_type", "model", "name", "fields", "type", "where"]

/-- A required `z.string()` field. -/
def reqString (raw : List (String × Json)) (k : String) :
    Except ValidationIssue String :=
  match lookupJ raw k with
  | none => .error ⟨k, "Required"⟩
  | some (.str s) => .ok s
  | some _ => .error ⟨k, "Expected string"⟩

/-- An optional `z.string().optional()` field. -/
def optString (raw : List (String × Json)) (k : String) :
    Except ValidationIssue (Option String) :=
  match lookupJ raw k with
  | none => .ok none
  | some (.str s) => .ok (some s)
  | some _ => .error ⟨k, "Expected string"⟩

/-- Reads an array value whose elements must all be strings. -/
def asStringArray : List Json → Option (List String)
  | [] => some []
  | .str s :: rest => (asStringArray rest).map (fun ss => s :: ss)
  | _ => none

/-- The `z.array(z.string()).min(1, ...)` field of the index contract. -/
def reqStringArrayMin1 (raw : List (String × Json)) (k : String) (minMsg : String) :
    Except ValidationIssue (List String) :=
  match lookupJ raw k with
  | none => .error ⟨k, "Required"⟩
  | some (.arr xs) =>
    match asStringArray xs with
    | some ss => if ss.length = 0 then .error ⟨k, minMsg⟩ else .ok ss
    | none => .error ⟨k, "Expected string"⟩
  | some _ => .error ⟨k, "Expected array"⟩

/-- An optional `z.enum([...]).optional()` field. -/
def optEnum (raw : List (String × Json)) (k : String) (vals : List String) :
    Except ValidationIssue (Option String) :=
  match lookupJ raw k with
  | none => .ok none
  | some (.str s) => if s ∈ vals then .ok (some s) else .error ⟨k, "Invalid enum value"⟩
  | some _ => .error ⟨k, "Invalid enum value"⟩

/-- `validate` from src/src/schemas/index.schema.ts: the strict
(closed-shape) zod contract `BaseSchema.extend(\x7b name?, fields min 1,
type?, where? \x7d).strict()`. -/
def validateIndex (raw : List (String × Json)) : Except ValidationIssue IndexRecord := do
  let t ← reqString raw "_schematic_type"
  let m ← reqString raw "model"
  let nm ← optString raw "name"
  let fs ← reqStringArrayMin1 raw "fields" "At least one field is required"
  let ty ← optEnum raw "type" ["id", "unique", "normal"]
  let wh ← optString raw "where"
  match (raw.map Prod.fst).filter (fun k => !(indexKeys.contains k)) with
  | [] => .ok ⟨t, m, nm, fs, ty, wh⟩
  | k :: _ => .error ⟨k, "Unrecognized key"⟩

/-- The registry of src/src/schemas/index.ts: exactly the kind `index`. -/
def registeredKinds : List String := ["index"]

/-! ## Extractor (src/src/state/extractor.ts) -/

mutual

/-- JavaScript `String(value)` coercion of a JSON value (`[object Object]`
for objects, comma-joined elements for arrays with null elements blank). -/
def jsToString : Json → String
  | .null => "null"
  | .bool true => "true"
  | .bool false => "false"
  | .num i => String.mk (intChars i)
  | .str s => s
  | .arr [] => ""
  | .arr (x :: xs) =>
    (match x with
     | .null => ""
     | y => jsToString y) ++ jsArrTailString xs
  | .obj _ => "[object Object]"
termination_by structural x => x

/-- Join tail for the array case of `jsToString`. -/
def jsArrTailString : List Json → String
  | [] => ""
  | x :: xs =>
    "," ++ (match x with
            | .null => ""
            | y => jsToString y) ++ jsArrTailString xs
termination_by structural l => l

end

/-- The errors `extract` can raise: a thrown `Error` (unknown annotation
type, or a parse failure surfaced from `parseAnnotation`) or a zod
validation error. -/
inductive ExtractError where
  | thrown (message : String)
  | validation (issue : ValidationIssue)
deriving Repr, DecidableEq

/-- Splits a documentation string at every newline, as `split('\n')`. -/
def splitNl : List Char → List (List Char)
  | [] => [[]]
  | c :: rest =>
    if c = '\n' then [] :: splitNl rest
    else
      match splitNl rest with
      | [] => [[c]]
      | seg :: segs => (c :: seg) :: segs

/-- The documentation lines kept by the extractor's filter: trimmed form
starts with `@<prefix-identifier>` (note: no trailing dot in the filter). -/
def keptLines (doc : String) (annPre : String) : List String :=
  ((splitNl doc.data).map String.mk).filter
    (fun line => startsWithChars (jsTrim line).data ("@" ++ annPre).data)

/-- The record built for one parsed annotation line:
`\x7b model: model.name, ...parsed \x7d` — the parsed pairs are spread after
the owning-model tag and can override it. -/
def annotationRecord (modelName : String) (parsed : List (String × Json)) :
    List (String × Json) :=
  objSpread [("model", .str modelName)] parsed

/-- Parses every kept line of one model's documentation, in order; the first
parse failure aborts (the `.map` callback throws). -/
def parseModelLines (modelName : String) (annPre : String) :
    List String → Except String (List (List (String × Json)))
  | [] => .ok []
  | line :: rest => do
    let parsed ← parseAnnot line annPre
    let tail ← parseModelLines modelName annPre rest
    .ok (annotationRecord modelName parsed :: tail)

/-- `getAnnotations` from src/src/state/extractor.ts: walk the models in
order; a model contributes lines only when its `documentation` is truthy
(present and nonempty). -/
def getAnnotationsGo (annPre : String) :
    List PModel → Except String (List (List (String × Json)))
  | [] => .ok []
  | m :: rest => do
    let here ←
      match m.documentation with
      | none => pure []
      | some doc =>
        if doc = "" then pure []
        else parseModelLines m.name annPre (keptLines doc annPre)
    let tail ← getAnnotationsGo annPre rest
    .ok (here ++ tail)

/-- `getAnnotations` over the whole Model Document. -/
def getAnnotations (dmmf : DMMFDocument) (annPre : String) :
    Except String (List (List (String × Json))) :=
  getAnnotationsGo annPre dmmf.datamodel.models

/-- The property names a plain object literal inherits from
`Object.prototype` (ES2023 §20.2.4). The JavaScript `in` operator consults
the prototype chain, so each of these passes the extractor's
`schemaType in schemas` guard although none is a registered validator. -/
def objectProtoKeys : List String :=
  ["constructor", "hasOwnProperty", "isPrototypeOf", "propertyIsEnumerable",
   "toLocaleString", "toString", "valueOf", "__proto__", "__defineGetter__",
   "__defineSetter__", "__lookupGetter__", "__lookupSetter__"]

/-- JavaScript `k in schemas` on the registry object literal of
src/src/schemas/index.ts: the own key `index`, or any property inherited
from `Object.prototype`. -/
def inSchemas (k : String) : Bool :=
  registeredKinds.contains k || objectProtoKeys.contains k

/-- A value the call `schemas[schemaType](annotation)` pushes into
`extractions`, retaining exactly what the final
`_schematic_type === 'index'` filter can observe of it. -/
inductive Extraction where
  /-- `schemas.index(annotation)`: the validated record. -/
  | validated (r : IndexRecord)
  /-- The inherited members returning a primitive or the registry object:
  `toString` and `toLocaleString` return the string `[object Object]`;
  `hasOwnProperty`, `isPrototypeOf` and `propertyIsEnumerable` return a
  boolean (`false`: the argument coerces to the key `[object Object]`,
  which is not an own property of the registry, and the registry is not in
  the annotation's prototype chain); `valueOf` returns the registry object
  itself. Reading `_schematic_type` on any of these yields `undefined`. -/
  | junk
  /-- `constructor` is the inherited `Object` constructor, and
  `Object(annotation)` returns the annotation object itself; the filter
  then reads its raw `_schematic_type` value, recorded here together with
  the fact that this value's string coercion selected the key
  `constructor`. -/
  | annObj (tag : Json) (htag : jsToString tag = "constructor")
  /-- `__lookupGetter__` and `__lookupSetter__` return `undefined`. -/
  | jsUndefined

/-- The call `schemas[schemaType](annotation)` after the `in` guard passed,
dispatching on the string coercion of the raw tag `v`: the registered
validator for `index`; otherwise the `Object.prototype` member fetched
through the prototype chain and called with `this = schemas`. `__proto__`
resolves (via its inherited accessor) to `Object.prototype`, which is not
callable, and `__defineGetter__`/`__defineSetter__` demand a callable
second argument, so those three throw a TypeError at the call (the host's
message is engine-specific; the model keeps only that a TypeError is
thrown). -/
def applySchema (v : Json) (ann : List (String × Json)) :
    Except ExtractError Extraction :=
  if jsToString v = "index" then
    match validateIndex ann with
    | .ok r => .ok (.validated r)
    | .error issue => .error (.validation issue)
  else if jsToString v = "toString" ∨ jsToString v = "toLocaleString" then .ok .junk
  else if jsToString v = "hasOwnProperty" ∨ jsToString v = "isPrototypeOf" ∨
      jsToString v = "propertyIsEnumerable" then .ok .junk
  else if jsToString v = "valueOf" then .ok .junk
  else if hc : jsToString v = "constructor" then .ok (.annObj v hc)
  else if jsToString v = "__lookupGetter__" ∨ jsToString v = "__lookupSetter__" then
    .ok .jsUndefined
  else .error (.thrown "TypeError")

/-- The extractor's forEach over parsed annotations: read the tag, check it
with JavaScript `in` (which coerces the tag to a property key and consults
the prototype chain), throw on a kind that is neither registered nor
inherited, and otherwise push the result of the schema call. -/
def processAnnotations :
    List (List (String × Json)) → List Extraction → Except ExtractError (List Extraction)
  | [], acc => .ok acc
  | ann :: rest, acc =>
    match lookupJ ann "_schematic_type" with
    | none => .error (.thrown "Unknown annotation type: undefined")
    | some v =>
      if inSchemas (jsToString v) then
        match applySchema v ann with
        | .ok x => processAnnotations rest (acc ++ [x])
        | .error e => .error e
      else .error (.thrown ("Unknown annotation type: " ++ jsToString v))

/-- The final `extractions.filter(e => e._schematic_type === 'index')`: a
validated record passes exactly when its kind is `index`; reading
`_schematic_type` on a string, a boolean or the registry object yields
`undefined`, never strictly equal to `'index'`; the annotation object of
the `constructor` case passes only if its raw tag is the string `index`,
which its recorded coercion to `constructor` rules out; reading a property
of `undefined` throws a TypeError. -/
def filterIndexes : List Extraction → Except ExtractError (List IndexRecord)
  | [] => .ok []
  | .validated r :: rest =>
    (filterIndexes rest).map
      (fun tail => if r.schematicType == "index" then r :: tail else tail)
  | .junk :: rest => filterIndexes rest
  | .annObj (.str s) htag :: rest =>
    if hs : s = "index" then absurd htag (by subst hs; decide)
    else filterIndexes rest
  | .annObj _ _ :: rest => filterIndexes rest
  | .jsUndefined :: _ => .error (.thrown "TypeError")

/-- `extract` from src/src/state/extractor.ts: parse all annotations,
dispatch each through the registry guard and schema call, and keep the
records whose kind discriminator is `index` (the snapshot's only
partition). -/
def extract (dmmf : DMMFDocument) (config : SchematicConfig) :
    Except ExtractError (List IndexRecord) :=
  match getAnnotations dmmf config.annotationPre with
  | .error msg => .error (.thrown msg)
  | .ok anns =>
    match processAnnotations anns [] with
    | .error e => .error e
    | .ok extractions => filterIndexes extractions

/-! ### Ordered-object lemmas -/

theorem lookupJ_objSet (obj : List (String × Json)) (k : String) (v : Json) (k' : String) :
    lookupJ (objSet obj k v) k' = if k = k' then some v else lookupJ obj k' := by
  induction obj with
  | nil => rfl
  | cons kv rest ih =>
    obtain ⟨a, b⟩ := kv
    by_cases hak : a = k
    · subst hak
      show lookupJ (if a = a then (a, v) :: rest else _) k' = _
      rw [if_pos rfl]
      show (if a = k' then some v else lookupJ rest k') = _
      by_cases hk : a = k'
      · rw [if_pos hk, if_pos hk]
      · rw [if_neg hk, if_neg hk]
        show _ = if a = k' then some b else lookupJ rest k'
        rw [if_neg hk]
    · show lookupJ (if a = k then _ else (a, b) :: objSet rest k v) k' = _
      rw [if_neg hak]
      show (if a = k' then some b else lookupJ (objSet rest k v) k') = _
      by_cases hk : a = k'
      · have hkk : ¬ k = k' := fun he => hak (hk.trans he.symm)
        rw [if_pos hk, if_neg hkk]
        show some b = if a = k' then some b else lookupJ rest k'
        rw [if_pos hk]
      · rw [if_neg hk, ih]
        by_cases hkk : k = k'
        · rw [if_pos hkk, if_pos hkk]
        · rw [if_neg hkk, if_neg hkk]
          show _ = if a = k' then some b else lookupJ rest k'
          rw [if_neg hk]

theorem objSet_keys (obj : List (String × Json)) (k : String) (v : Json) :
    (objSet obj k v).map Prod.fst =
      if k ∈ obj.map Prod.fst then obj.map Prod.fst else obj.map Prod.fst ++ [k] := by
  induction obj with
  | nil => rfl
  | cons kv rest ih =>
    obtain ⟨a, b⟩ := kv
    by_cases hak : a = k
    · subst hak
      show (objSet ((a, b) :: rest) a v).map Prod.fst = _
      rw [show objSet ((a, b) :: rest) a v = (a, v) :: rest from by
        show (if a = a then (a, v) :: rest else _) = _
        rw [if_pos rfl]]
      rw [if_pos (by simp)]
      rfl
    · rw [show objSet ((a, b) :: rest) k v = (a, b) :: objSet rest k v from by
        show (if a = k then _ else (a, b) :: objSet rest k v) = _
        rw [if_neg hak]]
      by_cases hmem : k ∈ rest.map Prod.fst
      · rw [if_pos (by simp [hmem])]
        show a :: (objSet rest k v).map Prod.fst = _
        rw [ih, if_pos hmem]
        rfl
      · rw [if_neg (by
          simp only [List.map_cons, List.mem_cons]
          push_neg
          exact ⟨fun h => hak h.symm, hmem⟩)]
        show a :: (objSet rest k v).map Prod.fst = _
        rw [ih, if_neg hmem]
        rfl

theorem objSet_keys_nodup (obj : List (String × Json)) (k : String) (v : Json)
    (h : (obj.map Prod.fst).Nodup) : ((objSet obj k v).map Prod.fst).Nodup := by
  rw [objSet_keys]
  by_cases hmem : k ∈ obj.map Prod.fst
  · rw [if_pos hmem]
    exact h
  · rw [if_neg hmem]
    simp [List.nodup_append, h, hmem]

theorem objSpread_keys_nodup (base : List (String × Json)) (pairs : List (String × Json))
    (h : (base.map Prod.fst).Nodup) : ((objSpread base pairs).map Prod.fst).Nodup := by
  induction pairs generalizing base with
  | nil => exact h
  | cons kv rest ih => exact ih _ (objSet_keys_nodup _ _ _ h)

theorem lookupJ_eq_none_of_not_mem (obj : List (String × Json)) (k : String)
    (h : ¬ k ∈ obj.map Prod.fst) : lookupJ obj k = none := by
  induction obj with
  | nil => rfl
  | cons kv rest ih =>
    obtain ⟨a, b⟩ := kv
    show (if a = k then some b else lookupJ rest k) = none
    rw [if_neg (by simp at h; exact fun he => h.1 he.symm)]
    exact ih (by simp at h; simp [h.2])

/-- Spread override: looking a key up in `objSpread base pairs` gives the
value from `pairs` when the key occurs there (keys of `pairs` unique), and
the base value otherwise. -/
theorem lookupJ_objSpread (pairs : List (String × Json)) (base : List (String × Json))
    (k : String) (h : (pairs.map Prod.fst).Nodup) :
    lookupJ (objSpread base pairs) k =
      match lookupJ pairs k with
      | some v => some v
      | none => lookupJ base k := by
  induction pairs generalizing base with
  | nil => rfl
  | cons kv rest ih =>
    obtain ⟨k1, v1⟩ := kv
    have hnd : (rest.map Prod.fst).Nodup := by simp at h; exact h.2
    have hnm : ¬ k1 ∈ rest.map Prod.fst := by simp at h; simpa using h.1
    show lookupJ (objSpread (objSet base k1 v1) rest) k = _
    rw [ih _ hnd]
    have hcons : lookupJ ((k1, v1) :: rest) k = if k1 = k then some v1 else lookupJ rest k :=
      rfl
    rw [hcons]
    by_cases hk : k1 = k
    · subst hk
      rw [lookupJ_eq_none_of_not_mem rest k1 hnm, if_pos rfl]
      show lookupJ (objSet base k1 v1) k1 = some v1
      rw [lookupJ_objSet, if_pos rfl]
    · rw [if_neg hk]
      cases hr : lookupJ rest k with
      | some v => rfl
      | none =>
        show lookupJ (objSet base k1 v1) k = lookupJ base k
        rw [lookupJ_objSet, if_neg hk]

theorem startsWithChars_append (p r : List Char) : startsWithChars (p ++ r) p = true := by
  induction p with
  | nil => cases r <;> rfl
  | cons c cs ih => simp [startsWithChars, ih]

/-- The parse of a well-formed call line `@<pre>.<kind>(<args>)`: the result
is the kind tag first, with the parsed arguments spread after it. -/
theorem parseAnnot_call (pre kind argsStr : String)
    (hk1 : kind.data ≠ []) (hk2 : ∀ c ∈ kind.data, isWordChar c = true) :
    parseAnnot ("@" ++ pre ++ "." ++ kind ++ "(" ++ argsStr ++ ")") pre =
      .ok (objSpread [("_schematic_type", Json.str kind)] (parseArguments argsStr)) := by
  have hdata : ("@" ++ pre ++ "." ++ kind ++ "(" ++ argsStr ++ ")").data =
      '@' :: (pre.data ++ '.' :: (kind.data ++ '(' :: (argsStr.data ++ [')']))) := by
    show (((((['@'] ++ pre.data) ++ ['.']) ++ kind.data) ++ ['(']) ++ argsStr.data) ++ [')'] = _
    simp [List.append_assoc]
  have hpat : ("@" ++ pre ++ ".").data = '@' :: (pre.data ++ ['.']) := by
    show (['@'] ++ pre.data) ++ ['.'] = _
    simp
  have hsplit : ("@" ++ pre ++ "." ++ kind ++ "(" ++ argsStr ++ ")").data =
      ("@" ++ pre ++ ".").data ++ (kind.data ++ '(' :: (argsStr.data ++ [')'])) := by
    rw [hdata, hpat]
    simp [List.append_assoc]
  have htrim : jsTrim ("@" ++ pre ++ "." ++ kind ++ "(" ++ argsStr ++ ")") =
      "@" ++ pre ++ "." ++ kind ++ "(" ++ argsStr ++ ")" := by
    unfold jsTrim
    rw [hdata, jsTrimChars_eq_self _ ⟨'@', _, rfl, by decide⟩
      ⟨'@' :: (pre.data ++ '.' :: (kind.data ++ '(' :: argsStr.data)), ')', by
        simp [List.append_assoc], by decide⟩, ← hdata]
  have hstarts : startsWithChars ("@" ++ pre ++ "." ++ kind ++ "(" ++ argsStr ++ ")").data
      ("@" ++ pre ++ ".").data = true := by
    rw [hsplit]
    exact startsWithChars_append _ _
  have hdrop : ("@" ++ pre ++ "." ++ kind ++ "(" ++ argsStr ++ ")").data.drop
      ("@" ++ pre ++ ".").data.length = kind.data ++ '(' :: (argsStr.data ++ [')']) := by
    rw [hsplit, List.drop_left]
  have htake := takeWhile_append_all isWordChar kind.data ('(' :: (argsStr.data ++ [')']))
    hk2 (Or.inr ⟨'(', _, rfl, by decide⟩)
  have hdropw := dropWhile_append_all isWordChar kind.data ('(' :: (argsStr.data ++ [')']))
    hk2 (Or.inr ⟨'(', _, rfl, by decide⟩)
  have hempty : (kind.data).isEmpty = false := by
    cases hc : kind.data with
    | nil => exact absurd hc hk1
    | cons c t => rfl
  simp only [parseAnnot, htrim, hstarts, hdrop, htake, hdropw, hempty, not_true,
    Bool.false_eq_true, if_false, List.getLast?_concat, List.dropLast_concat, string_mk_data]
  simp [string_mk_data]

theorem parseArguments_keys_nodup (argsStr : String) :
    ((parseArguments argsStr).map Prod.fst).Nodup := by
  unfold parseArguments
  split
  · exact List.nodup_nil
  · have hgen : ∀ (segs : List String) (acc : List (String × Json)),
        (acc.map Prod.fst).Nodup →
        ((segs.foldl (fun result pair =>
          match pair.data.findIdx? (· = ':') with
          | none => result
          | some i =>
              objSet result (jsTrim (String.mk (pair.data.take i)))
                (parseValue (jsTrim (String.mk (pair.data.drop (i + 1)))))) acc).map
          Prod.fst).Nodup := by
      intro segs
      induction segs with
      | nil => exact fun acc h => h
      | cons p rest ih =>
        intro acc hacc
        show ((List.foldl _ (match p.data.findIdx? (· = ':') with
          | none => acc
          | some i => objSet acc _ _) rest).map Prod.fst).Nodup
        cases p.data.findIdx? (· = ':') with
        | none => exact ih acc hacc
        | some i => exact ih _ (objSet_keys_nodup _ _ _ hacc)
    exact hgen _ [] List.nodup_nil

theorem parseAnnot_keys_nodup (ann annPre : String) (parsed : List (String × Json))
    (h : parseAnnot ann annPre = .ok parsed) : (parsed.map Prod.fst).Nodup := by
  simp only [parseAnnot] at h
  split at h
  · exact absurd h (by simp)
  · split at h
    · exact absurd h (by simp)
    · split at h
      · split at h
        · split at h
          · rw [Except.ok.injEq] at h
            subst h
            exact objSpread_keys_nodup _ _ (by simp)
          · exact absurd h (by simp)
        · exact absurd h (by simp)
      · exact absurd h (by simp)

/-- The default configuration (defaults from the spec's §6). -/
def defaultConfig : SchematicConfig :=
  ⟨"postgresql", false, "schematic", "./.schematic-state.json", "../generated"⟩

/-- A document whose only annotation writes the unregistered kind `nosuch`
but carries an argument literally named `_schematic_type` valued `index`. -/
def overrideDoc1 : DMMFDocument :=
  ⟨⟨[⟨"M", some "@schematic.nosuch(_schematic_type: \"index\", fields: [\"a\"])"⟩]⟩⟩

/-- A document whose only annotation writes the registered kind `index` but
carries an argument literally named `_schematic_type` valued `bogus`. -/
def overrideDoc2 : DMMFDocument :=
  ⟨⟨[⟨"M", some "@schematic.index(_schematic_type: \"bogus\", fields: [\"a\"])"⟩]⟩⟩

/-- C10: an argument literally named `_schematic_type` overrides the kind
written between the prefix and the parentheses (the parsed arguments are
spread after the kind tag), and extraction dispatches its registry lookup
on the overriding value: with the override `bogus` on a written `index`
extraction fails naming `bogus`, while an unregistered written kind with
override `index` validates successfully. -/
theorem parseAnnot_schematic_type_override :
    (∀ (pre kind argsStr : String),
      kind.data ≠ [] → (∀ c ∈ kind.data, isWordChar c = true) →
      parseAnnot ("@" ++ pre ++ "." ++ kind ++ "(" ++ argsStr ++ ")") pre =
        .ok (objSpread [("_schematic_type", Json.str kind)] (parseArguments argsStr)))
    ∧ (∀ (kind argsStr : String) (v : Json),
      lookupJ (parseArguments argsStr) "_schematic_type" = some v →
      lookupJ (objSpread [("_schematic_type", Json.str kind)] (parseArguments argsStr))
        "_schematic_type" = some v)
    ∧ extract overrideDoc2 defaultConfig =
        .error (.thrown "Unknown annotation type: bogus")
    ∧ extract overrideDoc1 defaultConfig = .ok [⟨"index", "M", none, ["a"], none, none⟩] := by
  refine ⟨fun pre kind argsStr h1 h2 => parseAnnot_call pre kind argsStr h1 h2,
    fun kind argsStr v h => ?_, rfl, rfl⟩
  rw [lookupJ_objSpread _ _ _ (parseArguments_keys_nodup argsStr), h]

/-- Concrete instantiation of the C10 override: a well-formed `index` call
parses to the tag-then-arguments spread, and an explicit
`_schematic_type: "bogus"` argument wins the lookup over the written kind. -/
theorem parseAnnot_schematic_type_override_witness :
    parseAnnot "@schematic.index(fields: [\"a\"])" "schematic" =
      .ok (objSpread [("_schematic_type", Json.str "index")]
        (parseArguments "fields: [\"a\"]")) ∧
    lookupJ (objSpread [("_schematic_type", Json.str "index")]
      (parseArguments "_schematic_type: \"bogus\"")) "_schematic_type" =
      some (Json.str "bogus") :=
  ⟨parseAnnot_schematic_type_override.1 "schematic" "index" "fields: [\"a\"]"
      (by decide) (by decide),
    parseAnnot_schematic_type_override.2.1 "index" "_schematic_type: \"bogus\""
      (Json.str "bogus") rfl⟩

theorem parseModelLines_mem (modelName annPre : String) (lines : List String)
    (recs : List (List (String × Json)))
    (h : parseModelLines modelName annPre lines = .ok recs) :
    ∀ a ∈ recs, ∃ line ∈ lines, ∃ parsed,
      parseAnnot line annPre = .ok parsed ∧ a = annotationRecord modelName parsed := by
  induction lines generalizing recs with
  | nil =>
    simp only [parseModelLines, Except.ok.injEq] at h
    subst h
    intro a ha
    exact absurd ha (List.not_mem_nil a)
  | cons line rest ih =>
    simp only [parseModelLines, bind, Except.bind] at h
    cases hp : parseAnnot line annPre with
    | error e => rw [hp] at h; exact absurd h (by simp)
    | ok parsed =>
      rw [hp] at h
      cases ht : parseModelLines modelName annPre rest with
      | error e => rw [ht] at h; exact absurd h (by simp)
      | ok tail =>
        rw [ht] at h
        simp only [Except.ok.injEq] at h
        subst h
        intro a ha
        cases List.mem_cons.mp ha with
        | inl hhead =>
          exact ⟨line, List.mem_cons_self line rest, parsed, hp, hhead⟩
        | inr htail =>
          obtain ⟨l', hl', parsed', hp', he'⟩ := ih tail ht a htail
          exact ⟨l', List.mem_cons_of_mem line hl', parsed', hp', he'⟩

theorem getAnnotationsGo_mem (annPre : String) (models : List PModel)
    (anns : List (List (String × Json)))
    (h : getAnnotationsGo annPre models = .ok anns) :
    ∀ a ∈ anns, ∃ m ∈ models, ∃ doc line parsed,
      m.documentation = some doc ∧ line ∈ keptLines doc annPre ∧
      parseAnnot line annPre = .ok parsed ∧ a = annotationRecord m.name parsed := by
  induction models generalizing anns with
  | nil =>
    simp only [getAnnotationsGo, Except.ok.injEq] at h
    subst h
    intro a ha
    exact absurd ha (List.not_mem_nil a)
  | cons m rest ih =>
    simp only [getAnnotationsGo, bind, Except.bind] at h
    have hsplit : ∃ here tail,
        (match m.documentation with
          | none => (pure [] : Except String (List (List (String × Json))))
          | some doc =>
            if doc = "" then pure []
            else parseModelLines m.name annPre (keptLines doc annPre)) = .ok here ∧
        getAnnotationsGo annPre rest = .ok tail ∧ anns = here ++ tail ∧
        (∀ a ∈ here, ∃ doc line parsed, m.documentation = some doc ∧
          line ∈ keptLines doc annPre ∧ parseAnnot line annPre = .ok parsed ∧
          a = annotationRecord m.name parsed) := by
      cases hdoc : m.documentation with
      | none =>
        rw [hdoc] at h
        cases htail : getAnnotationsGo annPre rest with
        | error e => rw [htail] at h; exact absurd h (by simp [pure, Except.pure])
        | ok tail =>
          rw [htail] at h
          simp only [pure, Except.pure, Except.ok.injEq] at h
          exact ⟨[], tail, rfl, rfl, by simp [h.symm], fun a ha => absurd ha (by simp)⟩
      | some doc =>
        simp only [hdoc] at h
        by_cases hde : doc = ""
        · rw [if_pos hde] at h
          cases htail : getAnnotationsGo annPre rest with
          | error e => rw [htail] at h; exact absurd h (by simp [pure, Except.pure])
          | ok tail =>
            rw [htail] at h
            simp only [pure, Except.pure, Except.ok.injEq] at h
            exact ⟨[], tail, by simp [hde, pure, Except.pure], rfl, by simp [h.symm],
              fun a ha => absurd ha (by simp)⟩
        · rw [if_neg hde] at h
          cases hpm : parseModelLines m.name annPre (keptLines doc annPre) with
          | error e => rw [hpm] at h; exact absurd h (by simp)
          | ok here =>
            rw [hpm] at h
            cases htail : getAnnotationsGo annPre rest with
            | error e => rw [htail] at h; exact absurd h (by simp [pure, Except.pure])
            | ok tail =>
              rw [htail] at h
              simp only [pure, Except.pure, Except.ok.injEq] at h
              refine ⟨here, tail, by simp [hde, hpm], rfl, h.symm, ?_⟩
              intro a ha
              obtain ⟨line, hl, parsed, hp, he⟩ := parseModelLines_mem _ _ _ _ hpm a ha
              exact ⟨doc, line, parsed, rfl, hl, hp, he⟩
    obtain ⟨here, tail, hh, htail, heq, hchar⟩ := hsplit
    subst heq
    intro a ha
    cases List.mem_append.mp ha with
    | inl hl =>
      obtain ⟨doc, line, parsed, hdoc, hline, hp, he⟩ := hchar a hl
      exact ⟨m, List.mem_cons_self m rest, doc, line, parsed, hdoc, hline, hp, he⟩
    | inr hr =>
      obtain ⟨m', hm', rest'⟩ := ih tail htail a hr
      exact ⟨m', List.mem_cons_of_mem m hm', rest'⟩

/-- C9: the parsed argument pairs are spread after the owning-model tag, so
an argument literally named `model` overrides the documenting model's name
in the record extraction produces; the model's own name is used only when
no such argument is present. -/
theorem extraction_model_override :
    (∀ (dmmf : DMMFDocument) (annPre : String) (anns : List (List (String × Json))),
      getAnnotations dmmf annPre = .ok anns →
      ∀ a ∈ anns, ∃ m ∈ dmmf.datamodel.models, ∃ doc line parsed,
        m.documentation = some doc ∧ line ∈ keptLines doc annPre ∧
        parseAnnot line annPre = .ok parsed ∧ a = annotationRecord m.name parsed)
    ∧ (∀ (name line annPre : String) (parsed : List (String × Json)) (v : Json),
      parseAnnot line annPre = .ok parsed →
      (lookupJ parsed "model" = some v →
        lookupJ (annotationRecord name parsed) "model" = some v) ∧
      (lookupJ parsed "model" = none →
        lookupJ (annotationRecord name parsed) "model" = some (Json.str name))) := by
  constructor
  · intro dmmf annPre anns h
    exact getAnnotationsGo_mem annPre dmmf.datamodel.models anns h
  · intro name line annPre parsed v hp
    have hnd := parseAnnot_keys_nodup line annPre parsed hp
    constructor
    · intro hm
      show lookupJ (objSpread [("model", Json.str name)] parsed) "model" = some v
      rw [lookupJ_objSpread _ _ _ hnd, hm]
    · intro hm
      show lookupJ (objSpread [("model", Json.str name)] parsed) "model" = some (Json.str name)
      rw [lookupJ_objSpread _ _ _ hnd, hm]
      rfl

/-- Concrete instantiation of the C9 override: the record built for model
`Post` from a line with an explicit `model: "Override"` argument carries
`Override`, not `Post`. -/
theorem extraction_model_override_witness :
    lookupJ (annotationRecord "Post"
      [("_schematic_type", Json.str "index"), ("model", Json.str "Override"),
        ("fields", Json.arr [Json.str "x"])]) "model" = some (Json.str "Override") :=
  (extraction_model_override.2 "Post"
    "@schematic.index(model: \"Override\", fields: [\"x\"])" "schematic"
    [("_schematic_type", Json.str "index"), ("model", Json.str "Override"),
      ("fields", Json.arr [Json.str "x"])] (Json.str "Override") rfl).1 rfl

/-- A parsed annotation the extractor's loop passes without throwing: its
kind tag is registered and its validation succeeds. -/
def DispatchOk (a : List (String × Json)) : Prop :=
  ∃ v r, lookupJ a "_schematic_type" = some v ∧
    registeredKinds.contains (jsToString v) = true ∧ validateIndex a = .ok r

theorem processAnnotations_ok_registered (anns : List (List (String × Json)))
    (acc res : List Extraction) (h : processAnnotations anns acc = .ok res) :
    ∀ a ∈ anns, ∃ v, lookupJ a "_schematic_type" = some v ∧
      inSchemas (jsToString v) = true := by
  induction anns generalizing acc with
  | nil =>
    intro a ha
    exact absurd ha (List.not_mem_nil a)
  | cons ann rest ih =>
    intro a ha
    simp only [processAnnotations] at h
    cases hl : lookupJ ann "_schematic_type" with
    | none =>
      simp only [hl] at h
      exact absurd h (by simp)
    | some v =>
      simp only [hl] at h
      by_cases hin : inSchemas (jsToString v) = true
      · rw [if_pos hin] at h
        cases happ : applySchema v ann with
        | error e =>
          simp only [happ] at h
          exact absurd h (by simp)
        | ok x =>
          simp only [happ] at h
          cases List.mem_cons.mp ha with
          | inl hh => subst hh; exact ⟨v, hl, hin⟩
          | inr ht => exact ih _ h a ht
      · rw [if_neg hin] at h
        exact absurd h (by simp)

theorem processAnnotations_first_unknown (anns : List (List (String × Json)))
    (acc : List Extraction) (i : Nat) (a : List (String × Json)) (v : Json)
    (hi : anns[i]? = some a) (hpre : ∀ b ∈ anns.take i, DispatchOk b)
    (hv : lookupJ a "_schematic_type" = some v)
    (hreg : inSchemas (jsToString v) = false) :
    processAnnotations anns acc = .error (.thrown ("Unknown annotation type: " ++
      jsToString v)) := by
  induction anns generalizing acc i with
  | nil => simp at hi
  | cons ann rest ih =>
    cases i with
    | zero =>
      simp only [List.getElem?_cons_zero, Option.some.injEq] at hi
      subst hi
      simp only [processAnnotations, hv, hreg]
      rfl
    | succ j =>
      have hgood : DispatchOk ann := by
        refine hpre ann ?_
        rw [List.take_succ_cons]
        exact List.mem_cons_self ann _
      obtain ⟨v0, r0, hv0, hreg0, hval0⟩ := hgood
      have hk : jsToString v0 = "index" := by
        simpa [registeredKinds] using hreg0
      have hin0 : inSchemas (jsToString v0) = true := by
        simp only [inSchemas, Bool.or_eq_true]
        exact Or.inl hreg0
      have happ : applySchema v0 ann = .ok (.validated r0) := by
        simp [applySchema, hk, hval0]
      simp only [processAnnotations, hv0, hin0, if_true, happ]
      refine ih _ j (by simpa using hi) ?_
      intro b hb
      refine hpre b ?_
      rw [List.take_succ_cons]
      exact List.mem_cons_of_mem ann hb

/-- A document whose only annotation writes the kind `toString`, an
`Object.prototype` property name that is not a registered validator. -/
def protoKindDoc : DMMFDocument :=
  ⟨⟨[⟨"User", some "@schematic.toString(fields: [\"a\"])"⟩]⟩⟩

/-- Counterexample to C3: the kind `toString` is not registered, but the
registry guard is the JavaScript `in` operator, which finds it on the
prototype chain — extraction does not throw: the inherited member's result
is dropped by the index filter and the annotation is silently skipped. -/
theorem extract_proto_kind_silently_skipped :
    registeredKinds.contains "toString" = false ∧
    inSchemas "toString" = true ∧
    getAnnotations protoKindDoc defaultConfig.annotationPre =
      .ok [[("model", Json.str "User"), ("_schematic_type", Json.str "toString"),
            ("fields", Json.arr [Json.str "a"])]] ∧
    extract protoKindDoc defaultConfig = .ok [] :=
  ⟨rfl, rfl, rfl, rfl⟩

/-- C3 (amended): a successful extraction means every parsed annotation's
kind tag passed the registry guard — JavaScript `in`, satisfied by the
registered kind or by an `Object.prototype` property name — and when all
annotations before position `i` dispatch and validate successfully while
the annotation at `i` carries a kind that passes neither, `extract` fails
with the thrown unknown-type error naming that kind. -/
theorem extract_unknown_kind_fails :
    (∀ (dmmf : DMMFDocument) (config : SchematicConfig) (res : List IndexRecord)
      (anns : List (List (String × Json))),
      extract dmmf config = .ok res →
      getAnnotations dmmf config.annotationPre = .ok anns →
      ∀ a ∈ anns, ∃ v, lookupJ a "_schematic_type" = some v ∧
        inSchemas (jsToString v) = true)
    ∧ (∀ (dmmf : DMMFDocument) (config : SchematicConfig)
      (anns : List (List (String × Json))) (i : Nat) (a : List (String × Json)) (v : Json),
      getAnnotations dmmf config.annotationPre = .ok anns →
      anns[i]? = some a →
      (∀ b ∈ anns.take i, DispatchOk b) →
      lookupJ a "_schematic_type" = some v →
      inSchemas (jsToString v) = false →
      extract dmmf config = .error (.thrown ("Unknown annotation type: " ++ jsToString v))) := by
  constructor
  · intro dmmf config res anns hok hga
    unfold extract at hok
    simp only [hga] at hok
    cases hp : processAnnotations anns [] with
    | error e =>
      rw [hp] at hok
      exact absurd hok (by simp)
    | ok ext => exact processAnnotations_ok_registered anns [] ext hp
  · intro dmmf config anns i a v hga hi hpre hv hreg
    unfold extract
    simp only [hga, processAnnotations_first_unknown anns [] i a v hi hpre hv hreg]

/-- A document carrying the `partialIndex` end-to-end example line. -/
def partialIndexDoc : DMMFDocument :=
  ⟨⟨[⟨"User", some "@schematic.partialIndex(columns: [\"email\"], where: \"active = true\")"⟩]⟩⟩

/-- Concrete instantiation of C3: the `partialIndex` annotation is rejected
by extraction with the unknown-type error naming `partialIndex`, since only
`index` is registered. -/
theorem extract_unknown_kind_fails_witness :
    extract partialIndexDoc defaultConfig =
      .error (.thrown "Unknown annotation type: partialIndex") :=
  extract_unknown_kind_fails.2 partialIndexDoc defaultConfig
    [[("model", Json.str "User"), ("_schematic_type", Json.str "partialIndex"),
      ("columns", Json.arr [Json.str "email"]), ("where", Json.str "active = true")]]
    0
    [("model", Json.str "User"), ("_schematic_type", Json.str "partialIndex"),
      ("columns", Json.arr [Json.str "email"]), ("where", Json.str "active = true")]
    (Json.str "partialIndex") rfl rfl
    (fun b hb => absurd hb (List.not_mem_nil b)) rfl rfl

/-! ### Validation contract (C4, C5) -/

theorem asStringArray_eq (xs : List Json) (ss : List String)
    (h : asStringArray xs = some ss) : xs = ss.map Json.str := by
  induction xs generalizing ss with
  | nil =>
    simp only [asStringArray, Option.some.injEq] at h
    subst h
    rfl
  | cons x rest ih =>
    cases x with
    | str s =>
      simp only [asStringArray, Option.map_eq_some'] at h
      obtain ⟨ss', hss', rfl⟩ := h
      rw [ih ss' hss']
      rfl
    | null => exact absurd h (by simp [asStringArray])
    | bool b => exact absurd h (by simp [asStringArray])
    | num i => exact absurd h (by simp [asStringArray])
    | arr ys => exact absurd h (by simp [asStringArray])
    | obj kvs => exact absurd h (by simp [asStringArray])

theorem reqString_ok (raw : List (String × Json)) (k : String) (s : String)
    (h : reqString raw k = .ok s) : lookupJ raw k = some (.str s) := by
  unfold reqString at h
  cases hl : lookupJ raw k with
  | none => rw [hl] at h; exact absurd h (by simp)
  | some v =>
    rw [hl] at h
    cases v with
    | str s' =>
      simp only [Except.ok.injEq] at h
      rw [h]
    | null => exact absurd h (by simp)
    | bool b => exact absurd h (by simp)
    | num i => exact absurd h (by simp)
    | arr ys => exact absurd h (by simp)
    | obj kvs => exact absurd h (by simp)

theorem optString_ok (raw : List (String × Json)) (k : String) (o : Option String)
    (h : optString raw k = .ok o) :
    lookupJ raw k = none ∨ ∃ s, lookupJ raw k = some (.str s) := by
  unfold optString at h
  cases hl : lookupJ raw k with
  | none => exact Or.inl rfl
  | some v =>
    rw [hl] at h
    cases v with
    | str s => exact Or.inr ⟨s, rfl⟩
    | null => exact absurd h (by simp)
    | bool b => exact absurd h (by simp)
    | num i => exact absurd h (by simp)
    | arr ys => exact absurd h (by simp)
    | obj kvs => exact absurd h (by simp)

theorem reqStringArrayMin1_ok (raw : List (String × Json)) (k msg : String)
    (fs : List String) (h : reqStringArrayMin1 raw k msg = .ok fs) :
    lookupJ raw k = some (.arr (fs.map Json.str)) ∧ fs ≠ [] := by
  unfold reqStringArrayMin1 at h
  cases hl : lookupJ raw k with
  | none => rw [hl] at h; exact absurd h (by simp)
  | some v =>
    rw [hl] at h
    cases v with
    | arr xs =>
      cases ha : asStringArray xs with
      | none =>
        simp only [ha] at h
        exact absurd h (by simp)
      | some ss =>
        simp only [ha] at h
        by_cases hz : ss.length = 0
        · rw [if_pos hz] at h
          exact absurd h (by simp)
        · rw [if_neg hz] at h
          simp only [Except.ok.injEq] at h
          subst h
          refine ⟨?_, ?_⟩
          · rw [asStringArray_eq xs ss ha]
          · intro he
            subst he
            exact hz rfl
    | null => exact absurd h (by simp)
    | bool b => exact absurd h (by simp)
    | num i => exact absurd h (by simp)
    | str s => exact absurd h (by simp)
    | obj kvs => exact absurd h (by simp)

theorem optEnum_ok (raw : List (String × Json)) (k : String) (vals : List String)
    (o : Option String) (h : optEnum raw k vals = .ok o) :
    lookupJ raw k = none ∨ ∃ s, lookupJ raw k = some (.str s) ∧ s ∈ vals := by
  unfold optEnum at h
  cases hl : lookupJ raw k with
  | none => exact Or.inl rfl
  | some v =>
    rw [hl] at h
    cases v with
    | str s =>
      by_cases hm : s ∈ vals
      · exact Or.inr ⟨s, rfl, hm⟩
      · simp only [if_neg hm] at h
        exact absurd h (by simp)
    | null => exact absurd h (by simp)
    | bool b => exact absurd h (by simp)
    | num i => exact absurd h (by simp)
    | arr ys => exact absurd h (by simp)
    | obj kvs => exact absurd h (by simp)

theorem validateIndex_ok_facts (raw : List (String × Json)) (rec : IndexRecord)
    (h : validateIndex raw = .ok rec) :
    reqString raw "_schematic_type" = .ok rec.schematicType ∧
    reqString raw "model" = .ok rec.model ∧
    optString raw "name" = .ok rec.name ∧
    reqStringArrayMin1 raw "fields" "At least one field is required" = .ok rec.fields ∧
    optEnum raw "type" ["id", "unique", "normal"] = .ok rec.type ∧
    optString raw "where" = .ok rec.whereClause ∧
    (raw.map Prod.fst).filter (fun k => !(indexKeys.contains k)) = [] := by
  simp only [validateIndex, bind, Except.bind] at h
  cases h1 : reqString raw "_schematic_type" with
  | error e => simp only [h1] at h; exact absurd h (by simp)
  | ok t =>
    simp only [h1] at h
    cases h2 : reqString raw "model" with
    | error e => simp only [h2] at h; exact absurd h (by simp)
    | ok m =>
      simp only [h2] at h
      cases h3 : optString raw "name" with
      | error e => simp only [h3] at h; exact absurd h (by simp)
      | ok nm =>
        simp only [h3] at h
        cases h4 : reqStringArrayMin1 raw "fields" "At least one field is required" with
        | error e => simp only [h4] at h; exact absurd h (by simp)
        | ok fs =>
          simp only [h4] at h
          cases h5 : optEnum raw "type" ["id", "unique", "normal"] with
          | error e => simp only [h5] at h; exact absurd h (by simp)
          | ok ty =>
            simp only [h5] at h
            cases h6 : optString raw "where" with
            | error e => simp only [h6] at h; exact absurd h (by simp)
            | ok wh =>
              simp only [h6] at h
              cases hx : (raw.map Prod.fst).filter (fun k => !(indexKeys.contains k)) with
              | cons k ks => simp only [hx] at h; exact absurd h (by simp)
              | nil =>
                simp only [hx, Except.ok.injEq] at h
                subst h
                simp [h1, h2, h3, h4, h5, h6, hx]

/-- The concrete record with duplicated `fields` entries. -/
def dupFieldsRaw : List (String × Json) :=
  [("_schematic_type", Json.str "index"), ("model", Json.str "M"),
    ("fields", Json.arr [Json.str "a", Json.str "a"])]

/-- C5 counterexample: the index contract does not check uniqueness of
`fields` — a record whose `fields` array repeats `a` validates
successfully, with the duplicate kept. -/
theorem validateIndex_accepts_duplicate_fields :
    validateIndex dupFieldsRaw = .ok ⟨"index", "M", none, ["a", "a"], none, none⟩ ∧
    ¬ (["a", "a"] : List String).Nodup :=
  ⟨rfl, by decide⟩

/-- C5 (amended): validation succeeds only if `fields` is an array of
strings with at least one element; the array is returned verbatim —
duplicates are neither rejected nor removed. -/
theorem validateIndex_fields_nonempty_verbatim (raw : List (String × Json))
    (rec : IndexRecord) (h : validateIndex raw = .ok rec) :
    rec.fields ≠ [] ∧ lookupJ raw "fields" = some (.arr (rec.fields.map Json.str)) := by
  obtain ⟨-, -, -, h4, -, -, -⟩ := validateIndex_ok_facts raw rec h
  obtain ⟨hlook, hne⟩ := reqStringArrayMin1_ok raw _ _ _ h4
  exact ⟨hne, hlook⟩

/-- Concrete instantiation of the amended C5 at the duplicated-fields
record: the validated `fields` is the verbatim nonempty array. -/
theorem validateIndex_fields_nonempty_verbatim_witness :
    (["a", "a"] : List String) ≠ [] ∧
    lookupJ dupFieldsRaw "fields" = some (.arr ((["a", "a"] : List String).map Json.str)) :=
  validateIndex_fields_nonempty_verbatim dupFieldsRaw
    ⟨"index", "M", none, ["a", "a"], none, none⟩ rfl

/-- The value is not a JSON string. -/
def NotAString (v : Json) : Prop := ∀ s, v ≠ Json.str s

/-- The value is not a nonempty array of strings. -/
def FieldsMismatch (v : Json) : Prop :=
  ¬ ∃ ss : List String, ss ≠ [] ∧ v = Json.arr (ss.map Json.str)

/-- The value is not one of the three `type` enumeration strings. -/
def EnumMismatch (v : Json) : Prop :=
  ¬ ∃ s, v = Json.str s ∧ (s = "id" ∨ s = "unique" ∨ s = "normal")

/-- The failure categories of C4, written from the claim: a required field
is missing, a present field's value does not match its declared type or the
three-value `type` enumeration, or a field outside the contract is
present. -/
def IndexContractViolation (raw : List (String × Json)) : Prop :=
  (lookupJ raw "_schematic_type" = none ∨ lookupJ raw "model" = none ∨
    lookupJ raw "fields" = none)
  ∨ ((∃ v, lookupJ raw "_schematic_type" = some v ∧ NotAString v)
    ∨ (∃ v, lookupJ raw "model" = some v ∧ NotAString v)
    ∨ (∃ v, lookupJ raw "name" = some v ∧ NotAString v)
    ∨ (∃ v, lookupJ raw "fields" = some v ∧ FieldsMismatch v)
    ∨ (∃ v, lookupJ raw "type" = some v ∧ EnumMismatch v)
    ∨ (∃ v, lookupJ raw "where" = some v ∧ NotAString v))
  ∨ (∃ k ∈ raw.map Prod.fst, ¬ k ∈ indexKeys)

theorem asStringArray_map (ss : List String) :
    asStringArray (ss.map Json.str) = some ss := by
  induction ss with
  | nil => rfl
  | cons s rest ih => simp [asStringArray, ih]

theorem reqString_error_exact (raw : List (String × Json)) (k : String)
    (e : ValidationIssue) (h : reqString raw k = .error e) :
    (lookupJ raw k = none ∧ e = ⟨k, "Required"⟩) ∨
    (∃ v, lookupJ raw k = some v ∧ NotAString v ∧ e = ⟨k, "Expected string"⟩) := by
  unfold reqString at h
  cases hl : lookupJ raw k with
  | none =>
    rw [hl] at h
    simp only [Except.error.injEq] at h
    exact Or.inl ⟨rfl, h.symm⟩
  | some v =>
    rw [hl] at h
    cases v
    case str s => exact absurd h (by simp)
    all_goals
      simp only [Except.error.injEq] at h
      exact Or.inr ⟨_, rfl, fun s hs => Json.noConfusion hs, h.symm⟩

theorem optString_error_exact (raw : List (String × Json)) (k : String)
    (e : ValidationIssue) (h : optString raw k = .error e) :
    ∃ v, lookupJ raw k = some v ∧ NotAString v ∧ e = ⟨k, "Expected string"⟩ := by
  unfold optString at h
  cases hl : lookupJ raw k with
  | none => rw [hl] at h; exact absurd h (by simp)
  | some v =>
    rw [hl] at h
    cases v
    case str s => exact absurd h (by simp)
    all_goals
      simp only [Except.error.injEq] at h
      exact ⟨_, rfl, fun s hs => Json.noConfusion hs, h.symm⟩

theorem reqStringArrayMin1_error_exact (raw : List (String × Json)) (k msg : String)
    (e : ValidationIssue) (h : reqStringArrayMin1 raw k msg = .error e) :
    (lookupJ raw k = none ∧ e = ⟨k, "Required"⟩) ∨
    (∃ v, lookupJ raw k = some v ∧ (∀ xs, v ≠ Json.arr xs) ∧ e = ⟨k, "Expected array"⟩) ∨
    (∃ xs, lookupJ raw k = some (Json.arr xs) ∧ asStringArray xs = none ∧
      e = ⟨k, "Expected string"⟩) ∨
    (lookupJ raw k = some (Json.arr []) ∧ e = ⟨k, msg⟩) := by
  unfold reqStringArrayMin1 at h
  cases hl : lookupJ raw k with
  | none =>
    rw [hl] at h
    simp only [Except.error.injEq] at h
    exact Or.inl ⟨rfl, h.symm⟩
  | some v =>
    rw [hl] at h
    cases v
    case arr xs =>
      cases ha : asStringArray xs with
      | none =>
        simp only [ha, Except.error.injEq] at h
        exact Or.inr (Or.inr (Or.inl ⟨xs, rfl, ha, h.symm⟩))
      | some ss =>
        simp only [ha] at h
        by_cases hz : ss.length = 0
        · rw [if_pos hz] at h
          simp only [Except.error.injEq] at h
          have hxs : xs = [] := by
            have hmap := asStringArray_eq xs ss ha
            rw [List.length_eq_zero] at hz
            subst hz
            simpa using hmap
          subst hxs
          exact Or.inr (Or.inr (Or.inr ⟨rfl, h.symm⟩))
        · rw [if_neg hz] at h
          exact absurd h (by simp)
    all_goals
      simp only [Except.error.injEq] at h
      exact Or.inr (Or.inl ⟨_, rfl, fun xs hxs => Json.noConfusion hxs, h.symm⟩)

theorem optEnum_error_exact (raw : List (String × Json)) (k : String)
    (e : ValidationIssue) (h : optEnum raw k ["id", "unique", "normal"] = .error e) :
    ∃ v, lookupJ raw k = some v ∧ EnumMismatch v ∧ e = ⟨k, "Invalid enum value"⟩ := by
  unfold optEnum at h
  cases hl : lookupJ raw k with
  | none => rw [hl] at h; exact absurd h (by simp)
  | some v =>
    rw [hl] at h
    cases v
    case str s =>
      by_cases hm : s ∈ ["id", "unique", "normal"]
      · simp [hm] at h
      · simp only [hm, if_false, Except.error.injEq] at h
        refine ⟨_, rfl, ?_, h.symm⟩
        rintro ⟨s2, hs2, hd⟩
        injection hs2 with hss
        subst hss
        exact hm (by rcases hd with rfl | rfl | rfl <;> simp)
    all_goals
      simp only [Except.error.injEq] at h
      refine ⟨_, rfl, ?_, h.symm⟩
      rintro ⟨s2, hs2, hd⟩
      exact Json.noConfusion hs2

/-- The payload predicate of C4: the raised issue names the offending field
in its path and the violated constraint in its message, matching the raw
record's actual defect at that field. -/
def IssueExplains (raw : List (String × Json)) (e : ValidationIssue) : Prop :=
  (e.path ∈ ["_schematic_type", "model", "fields"] ∧ lookupJ raw e.path = none ∧
    e.message = "Required")
  ∨ (e.path ∈ ["_schematic_type", "model", "name", "where"] ∧
      (∃ v, lookupJ raw e.path = some v ∧ NotAString v) ∧ e.message = "Expected string")
  ∨ (e.path = "fields" ∧
      ((∃ v, lookupJ raw "fields" = some v ∧ (∀ xs, v ≠ Json.arr xs) ∧
          e.message = "Expected array")
        ∨ (∃ xs, lookupJ raw "fields" = some (Json.arr xs) ∧ asStringArray xs = none ∧
            e.message = "Expected string")
        ∨ (lookupJ raw "fields" = some (Json.arr []) ∧
            e.message = "At least one field is required")))
  ∨ (e.path = "type" ∧ (∃ v, lookupJ raw "type" = some v ∧ EnumMismatch v) ∧
      e.message = "Invalid enum value")
  ∨ (e.path ∈ raw.map Prod.fst ∧ ¬ e.path ∈ indexKeys ∧ e.message = "Unrecognized key")

theorem validateIndex_error_explains (raw : List (String × Json)) (e : ValidationIssue)
    (h : validateIndex raw = .error e) : IssueExplains raw e := by
  simp only [validateIndex, bind, Except.bind] at h
  cases h1 : reqString raw "_schematic_type" with
  | error e1 =>
    simp only [h1, Except.error.injEq] at h
    subst h
    rcases reqString_error_exact raw _ e1 h1 with ⟨hn, rfl⟩ | ⟨v, hv, hns, rfl⟩
    · exact Or.inl ⟨by simp, hn, rfl⟩
    · exact Or.inr (Or.inl ⟨by simp, ⟨v, hv, hns⟩, rfl⟩)
  | ok t =>
    simp only [h1] at h
    cases h2 : reqString raw "model" with
    | error e2 =>
      simp only [h2, Except.error.injEq] at h
      subst h
      rcases reqString_error_exact raw _ e2 h2 with ⟨hn, rfl⟩ | ⟨v, hv, hns, rfl⟩
      · exact Or.inl ⟨by simp, hn, rfl⟩
      · exact Or.inr (Or.inl ⟨by simp, ⟨v, hv, hns⟩, rfl⟩)
    | ok m =>
      simp only [h2] at h
      cases h3 : optString raw "name" with
      | error e3 =>
        simp only [h3, Except.error.injEq] at h
        subst h
        obtain ⟨v, hv, hns, rfl⟩ := optString_error_exact raw _ e3 h3
        exact Or.inr (Or.inl ⟨by simp, ⟨v, hv, hns⟩, rfl⟩)
      | ok nm =>
        simp only [h3] at h
        cases h4 : reqStringArrayMin1 raw "fields" "At least one field is required" with
        | error e4 =>
          simp only [h4, Except.error.injEq] at h
          subst h
          rcases reqStringArrayMin1_error_exact raw _ _ e4 h4 with
            ⟨hn, rfl⟩ | ⟨v, hv, hna, rfl⟩ | ⟨xs, hv, ha, rfl⟩ | ⟨hv, rfl⟩
          · exact Or.inl ⟨by simp, hn, rfl⟩
          · exact Or.inr (Or.inr (Or.inl ⟨rfl, Or.inl ⟨v, hv, hna, rfl⟩⟩))
          · exact Or.inr (Or.inr (Or.inl ⟨rfl, Or.inr (Or.inl ⟨xs, hv, ha, rfl⟩)⟩))
          · exact Or.inr (Or.inr (Or.inl ⟨rfl, Or.inr (Or.inr ⟨hv, rfl⟩)⟩))
        | ok fs =>
          simp only [h4] at h
          cases h5 : optEnum raw "type" ["id", "unique", "normal"] with
          | error e5 =>
            simp only [h5, Except.error.injEq] at h
            subst h
            obtain ⟨v, hv, hem, rfl⟩ := optEnum_error_exact raw _ e5 h5
            exact Or.inr (Or.inr (Or.inr (Or.inl ⟨rfl, ⟨v, hv, hem⟩, rfl⟩)))
          | ok ty =>
            simp only [h5] at h
            cases h6 : optString raw "where" with
            | error e6 =>
              simp only [h6, Except.error.injEq] at h
              subst h
              obtain ⟨v, hv, hns, rfl⟩ := optString_error_exact raw _ e6 h6
              exact Or.inr (Or.inl ⟨by simp, ⟨v, hv, hns⟩, rfl⟩)
            | ok wh =>
              simp only [h6] at h
              cases hx : (raw.map Prod.fst).filter (fun k => !(indexKeys.contains k)) with
              | nil => simp only [hx] at h; exact absurd h (by simp)
              | cons k ks =>
                simp only [hx, Except.error.injEq] at h
                subst h
                have hk : k ∈ (raw.map Prod.fst).filter
                    (fun k => !(indexKeys.contains k)) := by
                  rw [hx]; exact List.mem_cons_self k ks
                rw [List.mem_filter] at hk
                refine Or.inr (Or.inr (Or.inr (Or.inr ⟨hk.1, ?_, rfl⟩)))
                simpa using hk.2

theorem issueExplains_violation (raw : List (String × Json)) (e : ValidationIssue)
    (h : IssueExplains raw e) : IndexContractViolation raw := by
  rcases h with ⟨hp, hn, -⟩ | ⟨hp, ⟨v, hv, hns⟩, -⟩ | ⟨hp, hsub⟩ |
    ⟨hp, ⟨v, hv, hem⟩, -⟩ | ⟨hp, hnk, -⟩
  · simp only [List.mem_cons, List.not_mem_nil, or_false] at hp
    rcases hp with hp | hp | hp
    · exact Or.inl (Or.inl (hp ▸ hn))
    · exact Or.inl (Or.inr (Or.inl (hp ▸ hn)))
    · exact Or.inl (Or.inr (Or.inr (hp ▸ hn)))
  · simp only [List.mem_cons, List.not_mem_nil, or_false] at hp
    rcases hp with hp | hp | hp | hp
    · exact Or.inr (Or.inl (Or.inl ⟨v, hp ▸ hv, hns⟩))
    · exact Or.inr (Or.inl (Or.inr (Or.inl ⟨v, hp ▸ hv, hns⟩)))
    · exact Or.inr (Or.inl (Or.inr (Or.inr (Or.inl ⟨v, hp ▸ hv, hns⟩))))
    · exact Or.inr (Or.inl (Or.inr (Or.inr (Or.inr (Or.inr (Or.inr ⟨v, hp ▸ hv, hns⟩))))))
  · rcases hsub with ⟨v, hv, hna, -⟩ | ⟨xs, hv, ha, -⟩ | ⟨hv, -⟩
    · refine Or.inr (Or.inl (Or.inr (Or.inr (Or.inr (Or.inl ⟨v, hv, ?_⟩)))))
      rintro ⟨ss, hne, rfl⟩
      exact hna _ rfl
    · refine Or.inr (Or.inl (Or.inr (Or.inr (Or.inr (Or.inl ⟨_, hv, ?_⟩)))))
      rintro ⟨ss, hne, heq⟩
      injection heq with hxs
      rw [hxs, asStringArray_map] at ha
      exact Option.noConfusion ha
    · refine Or.inr (Or.inl (Or.inr (Or.inr (Or.inr (Or.inl ⟨_, hv, ?_⟩)))))
      rintro ⟨ss, hne, heq⟩
      injection heq with hxs
      exact hne (by simpa using hxs.symm)
  · exact Or.inr (Or.inl (Or.inr (Or.inr (Or.inr (Or.inr (Or.inl ⟨v, hv, hem⟩))))))
  · exact Or.inr (Or.inr ⟨e.path, hp, hnk⟩)

/-- C4: the index validator raises a ValidationError exactly when a
required field is missing, a present field's value does not match its
declared type or the three-value `type` enumeration, or a key outside the
contract is present; and every raised issue carries the offending field in
its path and the violated constraint in its message. -/
theorem validateIndex_error_iff_contract_violation (raw : List (String × Json)) :
    ((∃ e, validateIndex raw = .error e) ↔ IndexContractViolation raw) ∧
    (∀ e, validateIndex raw = .error e → IssueExplains raw e) := by
  refine ⟨⟨?_, ?_⟩, fun e h => validateIndex_error_explains raw e h⟩
  · rintro ⟨e, h⟩
    exact issueExplains_violation raw e (validateIndex_error_explains raw e h)
  · intro hv
    cases hres : validateIndex raw with
    | error e => exact ⟨e, rfl⟩
    | ok rec =>
      exfalso
      obtain ⟨h1, h2, h3, h4, h5, h6, hx⟩ := validateIndex_ok_facts raw rec hres
      have l1 := reqString_ok raw _ _ h1
      have l2 := reqString_ok raw _ _ h2
      have l3 := optString_ok raw _ _ h3
      have l4 := reqStringArrayMin1_ok raw _ _ _ h4
      have l5 := optEnum_ok raw _ _ _ h5
      have l6 := optString_ok raw _ _ h6
      rcases hv with (hn | hn | hn) |
        (⟨v, hv', hns⟩ | ⟨v, hv', hns⟩ | ⟨v, hv', hns⟩ |
          ⟨v, hv', hfm⟩ | ⟨v, hv', hem⟩ | ⟨v, hv', hns⟩) | ⟨k, hkmem, hknot⟩
      · rw [l1] at hn; exact absurd hn (by simp)
      · rw [l2] at hn; exact absurd hn (by simp)
      · rw [l4.1] at hn; exact absurd hn (by simp)
      · exact hns _ (Option.some.inj (l1.symm.trans hv')).symm
      · exact hns _ (Option.some.inj (l2.symm.trans hv')).symm
      · rcases l3 with hnone | ⟨s, hs⟩
        · rw [hv'] at hnone; exact absurd hnone (by simp)
        · exact hns s (Option.some.inj (hv'.symm.trans hs))
      · refine hfm ⟨rec.fields, l4.2, ?_⟩
        exact Option.some.inj (hv'.symm.trans l4.1)
      · rcases l5 with hnone | ⟨s, hs, hmem⟩
        · rw [hv'] at hnone; exact absurd hnone (by simp)
        · exact hem ⟨s, Option.some.inj (hv'.symm.trans hs), by simpa using hmem⟩
      · rcases l6 with hnone | ⟨s, hs⟩
        · rw [hv'] at hnone; exact absurd hnone (by simp)
        · exact hns s (Option.some.inj (hv'.symm.trans hs))
      · have hk : k ∈ (raw.map Prod.fst).filter (fun k => !(indexKeys.contains k)) :=
          List.mem_filter.mpr ⟨hkmem, by simpa using hknot⟩
        rw [hx] at hk
        exact absurd hk (by simp)

/-- Concrete instantiation of C4: a record missing `model` fails with the
issue naming `model` in its path and the `Required` constraint in its
message, and the payload predicate explains that issue. -/
theorem validateIndex_error_iff_contract_violation_witness :
    validateIndex [("_schematic_type", Json.str "index"),
      ("fields", Json.arr [Json.str "a"])] = .error ⟨"model", "Required"⟩ ∧
    IssueExplains [("_schematic_type", Json.str "index"),
      ("fields", Json.arr [Json.str "a"])] ⟨"model", "Required"⟩ :=
  ⟨rfl,
    (validateIndex_error_iff_contract_violation [("_schematic_type", Json.str "index"),
      ("fields", Json.arr [Json.str "a"])]).2 ⟨"model", "Required"⟩ rfl⟩

/-! ## Loader (src/src/state/loader.ts, src/src/utils/file.utils.ts) -/

/-- JavaScript falsiness of a JSON-parsed value: `null`, `false`, `0` and
the empty string are falsy (`!state` in loadState). -/
def jsFalsy : Json → Bool
  | .null => true
  | .bool b => !b
  | .num i => i == 0
  | .str s => s == ""
  | _ => false

/-- resolveAndLoadFile of src/src/utils/file.utils.ts with `parse: 'json'`:
the file read is modelled as an `Except String String` (error = the read
threw). The catch-all swallows every failure — a read error or a
`JSON.parse` error both return `undefined` (`none`). -/
def resolveAndLoadFile (readResult : Except String String) : Option Json :=
  match readResult with
  | .error _ => none
  | .ok contents => jsonParse contents

/-- loadState of src/src/state/loader.ts. The two path guards throw
outside the try block; the empty-state check throws inside it, so its
message is re-wrapped by the catch into the loading-error format. -/
def loadState (stateFilePath schemaPath : String)
    (readResult : Except String String) : Except String Json :=
  if stateFilePath == "" then .error "State file path is required"
  else if schemaPath == "" then .error "Schema path is required"
  else
    match
      (match resolveAndLoadFile readResult with
       | none => Except.error ("State file is empty: " ++ stateFilePath)
       | some st =>
         if jsFalsy st then Except.error ("State file is empty: " ++ stateFilePath)
         else Except.ok st) with
    | .ok st => .ok st
    | .error msg =>
      .error ("There was an error loading the state file: " ++ stateFilePath
        ++ ". " ++ msg)

/-- Counterexample to C2: a successful read of empty content does not
surface `State file is empty: {path}` — the message is wrapped into the
loading-error format because the throw happens inside the try block. -/
theorem loadState_wraps_empty_state_error :
    loadState "state.json" "schema.prisma" (.ok "") =
      .error
        "There was an error loading the state file: state.json. State file is empty: state.json"
      ∧
    "There was an error loading the state file: state.json. State file is empty: state.json"
      ≠ "State file is empty: state.json" :=
  ⟨rfl, by decide⟩

/-- C2 (amended): with nonempty paths, both failure modes of the inner
load — the read throwing, or the read succeeding with no content — yield
the single wrapped message `There was an error loading the state file:
{path}. State file is empty: {path}`: the underlying cause is swallowed by
resolveAndLoadFile's catch-all and the empty-state message is re-wrapped
by loadState's catch. -/
theorem loadState_failure_message (sp sc : String) (r : Except String String)
    (hsp : sp ≠ "") (hsc : sc ≠ "")
    (hr : r = .ok "" ∨ ∃ msg, r = .error msg) :
    loadState sp sc r =
      .error ("There was an error loading the state file: " ++ sp
        ++ ". State file is empty: " ++ sp) := by
  have hload : resolveAndLoadFile r = none := by
    rcases hr with rfl | ⟨msg, rfl⟩
    · rfl
    · rfl
  have hcat : (". " : String) ++ ("State file is empty: " ++ sp)
      = ". State file is empty: " ++ sp := by
    rw [← String.append_assoc]
    rfl
  simp [loadState, hload, hsp, hsc]
  rw [String.append_assoc, hcat, ← String.append_assoc]

theorem loadState_failure_message_witness :
    ("state2.json" : String) ≠ "" ∧ ("schema.prisma" : String) ≠ "" ∧
    loadState "state2.json" "schema.prisma" (.error "ENOENT") =
      .error
        "There was an error loading the state file: state2.json. State file is empty: state2.json" :=
  ⟨by decide, by decide,
    loadState_failure_message "state2.json" "schema.prisma" (.error "ENOENT")
      (by decide) (by decide) (Or.inr ⟨"ENOENT", rfl⟩)⟩

/-! ## SHA-256 (src/src/utils/hash.ts; the digest itself modelled from the
FIPS 180-4 specification, since the implementation lives in node:crypto) -/

/-- Truncation to a 32-bit word. -/
def w32 (n : Nat) : Nat := n % 4294967296

/-- 32-bit right rotation. -/
def rotr (b n : Nat) : Nat := w32 ((n >>> b) ||| (n <<< (32 - b)))

/-- FIPS 180-4 Σ0. -/
def bigSigma0 (x : Nat) : Nat := (rotr 2 x) ^^^ (rotr 13 x) ^^^ (rotr 22 x)

/-- FIPS 180-4 Σ1. -/
def bigSigma1 (x : Nat) : Nat := (rotr 6 x) ^^^ (rotr 11 x) ^^^ (rotr 25 x)

/-- FIPS 180-4 σ0. -/
def smallSigma0 (x : Nat) : Nat := (rotr 7 x) ^^^ (rotr 18 x) ^^^ (x >>> 3)

/-- FIPS 180-4 σ1. -/
def smallSigma1 (x : Nat) : Nat := (rotr 17 x) ^^^ (rotr 19 x) ^^^ (x >>> 10)

/-- FIPS 180-4 Ch (¬x as xor with the 32-bit mask). -/
def chFn (x y z : Nat) : Nat := (x &&& y) ^^^ ((x ^^^ 4294967295) &&& z)

/-- FIPS 180-4 Maj. -/
def majFn (x y z : Nat) : Nat := (x &&& y) ^^^ (x &&& z) ^^^ (y &&& z)

/-- The 64 SHA-256 round constants. -/
def sha256K : List Nat :=
  [1116352408, 1899447441, 3049323471, 3921009573, 961987163, 1508970993,
   2453635748, 2870763221, 3624381080, 310598401, 607225278, 1426881987,
   1925078388, 2162078206, 2614888103, 3248222580, 3835390401, 4022224774,
   264347078, 604807628, 770255983, 1249150122, 1555081692, 1996064986,
   2554220882, 2821834349, 2952996808, 3210313671, 3336571891, 3584528711,
   113926993, 338241895, 666307205, 773529912, 1294757372, 1396182291,
   1695183700, 1986661051, 2177026350, 2456956037, 2730485921, 2820302411,
   3259730800, 3345764771, 3516065817, 3600352804, 4094571909, 275423344,
   430227734, 506948616, 659060556, 883997877, 958139571, 1322822218,
   1537002063, 1747873779, 1955562222, 2024104815, 2227730452, 2361852424,
   2428436474, 2756734187, 3204031479, 3329325298]

/-- Big-endian byte expansion of a number into `w` bytes. -/
def bytesBE : Nat → Nat → List Nat
  | 0, _ => []
  | w + 1, n => (n >>> (8 * w)) % 256 :: bytesBE w n

/-- SHA-256 padding: append `0x80`, zeros to 56 mod 64, and the 8-byte
big-endian bit length. -/
def padMsg (msg : List Nat) : List Nat :=
  msg ++ [0x80] ++ List.replicate ((119 - msg.length % 64) % 64) 0
    ++ bytesBE 8 (8 * msg.length)

/-- Splits a byte list into 64-byte chunks (`fuel` bounds the recursion). -/
def chunksAux : Nat → List Nat → List (List Nat)
  | 0, _ => []
  | _, [] => []
  | fuel + 1, l => l.take 64 :: chunksAux fuel (l.drop 64)

/-- The 64-byte chunks of a padded message. -/
def chunks (l : List Nat) : List (List Nat) := chunksAux l.length l

/-- Packs bytes into big-endian 32-bit words. -/
def toWords : List Nat → List Nat
  | b0 :: b1 :: b2 :: b3 :: rest =>
    (((b0 * 256 + b1) * 256 + b2) * 256 + b3) :: toWords rest
  | _ => []

/-- Extends the 16-word block to the 64-word message schedule: each new
word is w[n-16] + σ0(w[n-15]) + w[n-7] + σ1(w[n-2]) mod 2^32. -/
def scheduleAux : Nat → List Nat → List Nat
  | 0, acc => acc
  | fuel + 1, acc =>
    scheduleAux fuel (acc ++
      [w32 (acc.getD (acc.length - 16) 0
        + smallSigma0 (acc.getD (acc.length - 15) 0)
        + acc.getD (acc.length - 7) 0
        + smallSigma1 (acc.getD (acc.length - 2) 0))])

/-- The full 64-word message schedule of one block. -/
def schedule (ws : List Nat) : List Nat := scheduleAux 48 ws

/-- The eight 32-bit working variables of SHA-256. -/
structure Hash8 where
  a : Nat
  b : Nat
  c : Nat
  d : Nat
  e : Nat
  f : Nat
  g : Nat
  h : Nat

/-- The SHA-256 initial hash value. -/
def sha256H0 : Hash8 :=
  ⟨1779033703, 3144134277, 1013904242, 2773480762,
   1359893119, 2600822924, 528734635, 1541459225⟩

/-- One SHA-256 compression round on (round constant, schedule word). -/
def compressStep (st : Hash8) (kw : Nat × Nat) : Hash8 :=
  let t1 := w32 (st.h + bigSigma1 st.e + chFn st.e st.f st.g + kw.1 + kw.2)
  let t2 := w32 (bigSigma0 st.a + majFn st.a st.b st.c)
  ⟨w32 (t1 + t2), st.a, st.b, st.c, w32 (st.d + t1), st.e, st.f, st.g⟩

/-- Processes one 64-byte chunk: 64 compression rounds, then the feed-forward
addition of the incoming state. -/
def processChunk (st : Hash8) (chunk : List Nat) : Hash8 :=
  let st2 := (sha256K.zip (schedule (toWords chunk))).foldl compressStep st
  ⟨w32 (st.a + st2.a), w32 (st.b + st2.b), w32 (st.c + st2.c), w32 (st.d + st2.d),
   w32 (st.e + st2.e), w32 (st.f + st2.f), w32 (st.g + st2.g), w32 (st.h + st2.h)⟩

/-- The SHA-256 digest of a byte message, as 32 bytes. -/
def sha256Bytes (msg : List Nat) : List Nat :=
  let st := (chunks (padMsg msg)).foldl processChunk sha256H0
  bytesBE 4 st.a ++ bytesBE 4 st.b ++ bytesBE 4 st.c ++ bytesBE 4 st.d
    ++ bytesBE 4 st.e ++ bytesBE 4 st.f ++ bytesBE 4 st.g ++ bytesBE 4 st.h

/-- Lowercase hexadecimal characters of a byte list, two per byte. -/
def hexCharsOf : List Nat → List Char
  | [] => []
  | b :: bs => hexChar (b / 16) :: hexChar (b % 16) :: hexCharsOf bs

/-- Lowercase hexadecimal string of a byte list. -/
def hexOfBytes (bs : List Nat) : String := String.mk (hexCharsOf bs)

/-- UTF-8 encoding of one character. -/
def utf8Char (c : Char) : List Nat :=
  let n := c.toNat
  if n < 128 then [n]
  else if n < 2048 then [192 + n / 64, 128 + n % 64]
  else if n < 65536 then [224 + n / 4096, 128 + (n / 64) % 64, 128 + n % 64]
  else [240 + n / 262144, 128 + (n / 4096) % 64, 128 + (n / 64) % 64, 128 + n % 64]

/-- UTF-8 encoding of a string. -/
def utf8Bytes (s : String) : List Nat :=
  s.data.foldr (fun c acc => utf8Char c ++ acc) []

/-- The argument of computeHash: a raw string or a JSON-like object. -/
inductive HashArg
  | str (s : String)
  | json (j : Json)

/-- computeHash of src/src/utils/hash.ts: non-string values are
JSON-stringified, then the SHA-256 digest of the UTF-8 bytes is returned
in lowercase hex. -/
def computeHash : HashArg → String
  | .str s => hexOfBytes (sha256Bytes (utf8Bytes s))
  | .json j => hexOfBytes (sha256Bytes (utf8Bytes (stringify j)))

theorem bytesBE_length (w n : Nat) : (bytesBE w n).length = w := by
  induction w generalizing n with
  | zero => rfl
  | succ w ih => simp [bytesBE, ih]

theorem sha256Bytes_length (msg : List Nat) : (sha256Bytes msg).length = 32 := by
  simp [sha256Bytes, bytesBE_length]

theorem hexCharsOf_length (bs : List Nat) :
    (hexCharsOf bs).length = 2 * bs.length := by
  induction bs with
  | nil => rfl
  | cons b bs ih => simp [hexCharsOf, ih]; ring

theorem hexChar_mem (n : Nat) : hexChar n ∈ ("0123456789abcdef".data) := by
  unfold hexChar
  split <;> decide

theorem hexCharsOf_mem (bs : List Nat) (c : Char) (hc : c ∈ hexCharsOf bs) :
    c ∈ ("0123456789abcdef".data) := by
  induction bs with
  | nil => exact absurd hc (by simp [hexCharsOf])
  | cons b bs ih =>
    simp only [hexCharsOf, List.mem_cons] at hc
    rcases hc with rfl | rfl | hc
    · exact hexChar_mem _
    · exact hexChar_mem _
    · exact ih hc

theorem hexOfBytes_sha256_facts (msg : List Nat) :
    (hexOfBytes (sha256Bytes msg)).length = 64 ∧
    ∀ c ∈ (hexOfBytes (sha256Bytes msg)).data, c ∈ ("0123456789abcdef".data) := by
  constructor
  · show (hexCharsOf (sha256Bytes msg)).length = 64
    rw [hexCharsOf_length, sha256Bytes_length]
  · intro c hc
    exact hexCharsOf_mem _ c hc

set_option maxRecDepth 8192 in
/-- C8: computeHash of the empty string is the canonical SHA-256 digest of
the empty message; a non-string input hashes exactly as its JSON
serialization does; and every output is a 64-character lowercase
hexadecimal string. -/
theorem computeHash_sha256_facts :
    computeHash (.str "") =
      "e3b0c44298fc1c149afbf4c8996fb92427ae41e4649b934ca495991b7852b855" ∧
    (∀ j : Json, computeHash (.json j) = computeHash (.str (stringify j))) ∧
    (∀ v : HashArg, (computeHash v).length = 64 ∧
      ∀ c ∈ (computeHash v).data, c ∈ ("0123456789abcdef".data)) := by
  refine ⟨by rfl, fun j => rfl, fun v => ?_⟩
  cases v with
  | str s => exact hexOfBytes_sha256_facts (utf8Bytes s)
  | json j => exact hexOfBytes_sha256_facts (utf8Bytes (stringify j))

/-! ## State builder (src/src/state/builder.ts); the wall clock and
`Date.prototype.toISOString` are modelled from their specification, since
they live in the JavaScript runtime, not in src. -/

/-- A wall-clock instant with millisecond resolution, modelled from the
spec of the JavaScript `Date`: year, month, day, hour, minute, second and
millisecond components. -/
structure Timestamp where
  year : Nat
  month : Nat
  day : Nat
  hour : Nat
  minute : Nat
  second : Nat
  millis : Nat
deriving Repr, DecidableEq

/-- The components of a timestamp, most significant first. -/
def Timestamp.fields (t : Timestamp) : List Nat :=
  [t.year, t.month, t.day, t.hour, t.minute, t.second, t.millis]

/-- Component bounds under which the ISO rendering is fixed-width (real
clock values satisfy much tighter bounds). -/
def Timestamp.validB (t : Timestamp) : Bool :=
  decide (t.year < 10000) && decide (t.month < 100) && decide (t.day < 100) &&
  decide (t.hour < 100) && decide (t.minute < 100) && decide (t.second < 100) &&
  decide (t.millis < 1000)

/-- Lexicographic order on component lists: the chronological order of
timestamps. -/
def natListLeB : List Nat → List Nat → Bool
  | [], _ => true
  | _ :: _, [] => false
  | x :: xs, y :: ys => decide (x < y) || (x == y && natListLeB xs ys)

/-- `t1` is chronologically no later than `t2`. -/
def tsLe (t1 t2 : Timestamp) : Bool := natListLeB t1.fields t2.fields

/-- Fixed-width decimal rendering of `n` in `w` digits, most significant
first. -/
def padDigits : Nat → Nat → List Char
  | 0, _ => []
  | w + 1, n => digitChar (n / 10 ^ w) :: padDigits w (n % 10 ^ w)

/-- The character list of the ISO-8601 rendering
`YYYY-MM-DDTHH:mm:ss.sssZ` produced by `Date.prototype.toISOString`,
modelled from its specification. -/
def isoChars (t : Timestamp) : List Char :=
  padDigits 4 t.year ++ ('-' :: (padDigits 2 t.month ++ ('-' :: (padDigits 2 t.day ++
    ('T' :: (padDigits 2 t.hour ++ (':' :: (padDigits 2 t.minute ++ (':' ::
    (padDigits 2 t.second ++ ('.' :: (padDigits 3 t.millis ++ ['Z']))))))))))))

/-- `Date.prototype.toISOString`, modelled from its specification. -/
def toISOString (t : Timestamp) : String := String.mk (isoChars t)

/-- JavaScript `<=` on strings: lexicographic comparison by code unit. -/
def charListLeB : List Char → List Char → Bool
  | [], _ => true
  | _ :: _, [] => false
  | c :: cs, d :: ds => decide (c.toNat < d.toNat) || (c == d && charListLeB cs ds)

/-- Strict lexicographic comparison by code unit. -/
def charListLtB : List Char → List Char → Bool
  | _, [] => false
  | [], _ :: _ => true
  | c :: cs, d :: ds => decide (c.toNat < d.toNat) || (c == d && charListLtB cs ds)

/-- JavaScript string `<=` (lexical order). -/
def strLexLe (s1 s2 : String) : Bool := charListLeB s1.data s2.data

/-- JSON serialization of one model, modelling `JSON.stringify` on the
retained fields (an absent documentation is `undefined` and is omitted). -/
def pmodelToJson (m : PModel) : Json :=
  match m.documentation with
  | none => .obj [("name", .str m.name)]
  | some d => .obj [("name", .str m.name), ("documentation", .str d)]

/-- JSON serialization of the restricted Model Document. -/
def dmmfToJson (d : DMMFDocument) : Json :=
  .obj [("datamodel", .obj [("models", .arr (d.datamodel.models.map pmodelToJson))])]

/-- The generated state snapshot (src/src/types/state.types.ts). -/
structure State where
  generatedAt : String
  schemaHash : String
  indexes : List IndexRecord
deriving Repr, DecidableEq

/-- buildState of src/src/state/builder.ts: generatedAt is the current
instant's ISO rendering, schemaHash the digest of the serialized document,
and the extraction result is spread into the snapshot. -/
def buildState (now : Timestamp) (dmmf : DMMFDocument) (config : SchematicConfig) :
    Except ExtractError State :=
  match extract dmmf config with
  | .error e => .error e
  | .ok idxs => .ok ⟨toISOString now, computeHash (.json (dmmfToJson dmmf)), idxs⟩

theorem charListLeB_cons_same (c : Char) (a b : List Char) :
    charListLeB (c :: a) (c :: b) = charListLeB a b := by
  simp [charListLeB]

theorem charListLeB_append_same (xs a b : List Char)
    (h : charListLeB a b = true) :
    charListLeB (xs ++ a) (xs ++ b) = true := by
  induction xs with
  | nil => simpa using h
  | cons c cs ih =>
    rw [List.cons_append, List.cons_append, charListLeB_cons_same]
    exact ih

theorem charListLtB_append (xs ys a b : List Char)
    (hlen : xs.length = ys.length) (h : charListLtB xs ys = true) :
    charListLeB (xs ++ a) (ys ++ b) = true := by
  induction xs generalizing ys with
  | nil =>
    cases ys with
    | nil => exact absurd h (by simp [charListLtB])
    | cons d ds => simp at hlen
  | cons c cs ih =>
    cases ys with
    | nil => simp at hlen
    | cons d ds =>
      simp only [charListLtB, Bool.or_eq_true, Bool.and_eq_true,
        decide_eq_true_iff, beq_iff_eq] at h
      rcases h with hlt | ⟨rfl, hrec⟩
      · simp [charListLeB, hlt]
      · rw [List.cons_append, List.cons_append, charListLeB_cons_same]
        exact ih ds (by simpa using hlen) hrec

theorem padDigits_length (w n : Nat) : (padDigits w n).length = w := by
  induction w generalizing n with
  | zero => rfl
  | succ w ih => simp [padDigits, ih]

theorem digitChar_toNat (n : Nat) (h : n < 10) : (digitChar n).toNat = 48 + n := by
  interval_cases n <;> rfl

theorem padDigits_lt (w n m : Nat) (hnm : n < m) (hm : m < 10 ^ w) :
    charListLtB (padDigits w n) (padDigits w m) = true := by
  induction w generalizing n m with
  | zero => simp at hm; omega
  | succ w ih =>
    have hp : 0 < 10 ^ w := Nat.pos_pow_of_pos w (by norm_num)
    rw [pow_succ] at hm
    have hmd : m / 10 ^ w < 10 := Nat.div_lt_of_lt_mul (by omega)
    have hnd : n / 10 ^ w ≤ m / 10 ^ w := Nat.div_le_div_right (Nat.le_of_lt hnm)
    rcases Nat.lt_or_ge (n / 10 ^ w) (m / 10 ^ w) with hdiv | hdiv
    · simp only [padDigits, charListLtB, Bool.or_eq_true, decide_eq_true_iff]
      left
      rw [digitChar_toNat _ (lt_of_le_of_lt hnd hmd), digitChar_toNat _ hmd]
      omega
    · have heq : n / 10 ^ w = m / 10 ^ w := Nat.le_antisymm hnd hdiv
      have hx := Nat.div_add_mod n (10 ^ w)
      have hy := Nat.div_add_mod m (10 ^ w)
      rw [heq] at hx
      have hmodlt : m % 10 ^ w < 10 ^ w := Nat.mod_lt _ hp
      have hmod : n % 10 ^ w < m % 10 ^ w := by omega
      simp only [padDigits, charListLtB, Bool.or_eq_true, Bool.and_eq_true,
        decide_eq_true_iff, beq_iff_eq]
      right
      exact ⟨by rw [heq], ih _ _ hmod hmodlt⟩

theorem padStepLe (w n m : Nat) (a b : List Char)
    (hle : n ≤ m) (hm : m < 10 ^ w)
    (heq : n = m → charListLeB a b = true) :
    charListLeB (padDigits w n ++ a) (padDigits w m ++ b) = true := by
  rcases Nat.lt_or_eq_of_le hle with hlt | rfl
  · exact charListLtB_append _ _ _ _
      (by rw [padDigits_length, padDigits_length]) (padDigits_lt w n m hlt hm)
  · exact charListLeB_append_same _ _ _ (heq rfl)

theorem isoChars_mono (t1 t2 : Timestamp)
    (hv2 : t2.validB = true) (hle : tsLe t1 t2 = true) :
    charListLeB (isoChars t1) (isoChars t2) = true := by
  simp only [Timestamp.validB, Bool.and_eq_true, decide_eq_true_iff] at hv2
  obtain ⟨⟨⟨⟨⟨⟨hy2, hmo2⟩, hd2⟩, hh2⟩, hmi2⟩, hs2⟩, hms2⟩ := hv2
  simp only [tsLe, Timestamp.fields, natListLeB, Bool.or_eq_true, Bool.and_eq_true,
    decide_eq_true_iff, beq_iff_eq] at hle
  unfold isoChars
  rcases hle with hlt | ⟨heqc, hle⟩
  · exact padStepLe 4 _ _ _ _ (le_of_lt hlt) (by omega) (fun he => absurd he (Nat.ne_of_lt hlt))
  · refine padStepLe 4 _ _ _ _ (le_of_eq heqc) (by omega) (fun _ => ?_)
    rw [charListLeB_cons_same]
    rcases hle with hlt | ⟨heqc2, hle⟩
    · exact padStepLe 2 _ _ _ _ (le_of_lt hlt) (by omega) (fun he => absurd he (Nat.ne_of_lt hlt))
    · refine padStepLe 2 _ _ _ _ (le_of_eq heqc2) (by omega) (fun _ => ?_)
      rw [charListLeB_cons_same]
      rcases hle with hlt | ⟨heqc3, hle⟩
      · exact padStepLe 2 _ _ _ _ (le_of_lt hlt) (by omega) (fun he => absurd he (Nat.ne_of_lt hlt))
      · refine padStepLe 2 _ _ _ _ (le_of_eq heqc3) (by omega) (fun _ => ?_)
        rw [charListLeB_cons_same]
        rcases hle with hlt | ⟨heqc4, hle⟩
        · exact padStepLe 2 _ _ _ _ (le_of_lt hlt) (by omega) (fun he => absurd he (Nat.ne_of_lt hlt))
        · refine padStepLe 2 _ _ _ _ (le_of_eq heqc4) (by omega) (fun _ => ?_)
          rw [charListLeB_cons_same]
          rcases hle with hlt | ⟨heqc5, hle⟩
          · exact padStepLe 2 _ _ _ _ (le_of_lt hlt) (by omega) (fun he => absurd he (Nat.ne_of_lt hlt))
          · refine padStepLe 2 _ _ _ _ (le_of_eq heqc5) (by omega) (fun _ => ?_)
            rw [charListLeB_cons_same]
            rcases hle with hlt | ⟨heqc6, hle⟩
            · exact padStepLe 2 _ _ _ _ (le_of_lt hlt) (by omega) (fun he => absurd he (Nat.ne_of_lt hlt))
            · refine padStepLe 2 _ _ _ _ (le_of_eq heqc6) (by omega) (fun _ => ?_)
              rw [charListLeB_cons_same]
              rcases hle with hlt | ⟨heqc7, -⟩
              · exact padStepLe 3 _ _ _ _ (le_of_lt hlt) (by omega) (fun he => absurd he (Nat.ne_of_lt hlt))
              · refine padStepLe 3 _ _ _ _ (le_of_eq heqc7) (by omega) (fun _ => ?_)
                decide

/-- C7: two builds of the same document and configuration agree on
schemaHash and element-wise on indexes; only generatedAt may differ, and a
chronologically later (or equal) second call yields a lexically
greater-or-equal generatedAt. -/
theorem buildState_idempotent (t1 t2 : Timestamp) (dmmf : DMMFDocument)
    (config : SchematicConfig) (s1 s2 : State)
    (hv2 : t2.validB = true)
    (h1 : buildState t1 dmmf config = .ok s1)
    (h2 : buildState t2 dmmf config = .ok s2) :
    s1.schemaHash = s2.schemaHash ∧ s1.indexes = s2.indexes ∧
    (tsLe t1 t2 = true → strLexLe s1.generatedAt s2.generatedAt = true) := by
  unfold buildState at h1 h2
  cases hext : extract dmmf config with
  | error e =>
    rw [hext] at h1
    exact absurd h1 (by simp)
  | ok idxs =>
    rw [hext] at h1 h2
    simp only [Except.ok.injEq] at h1 h2
    subst h1
    subst h2
    exact ⟨rfl, rfl, fun hle => isoChars_mono t1 t2 hv2 hle⟩

/-- First build instant of the witness. -/
def tsW1 : Timestamp := ⟨2024, 1, 15, 10, 30, 0, 999⟩

/-- Second build instant of the witness, one millisecond later. -/
def tsW2 : Timestamp := ⟨2024, 1, 15, 10, 30, 1, 0⟩

/-- A document with one model carrying one index annotation. -/
def builderDoc : DMMFDocument :=
  ⟨⟨[⟨"Post", some "@schematic.index(fields: [\"authorId\"])"⟩]⟩⟩

/-- The snapshot of the first witness build. -/
def builderState1 : State :=
  match buildState tsW1 builderDoc defaultConfig with
  | .ok s => s
  | .error _ => ⟨"", "", []⟩

/-- The snapshot of the second witness build. -/
def builderState2 : State :=
  match buildState tsW2 builderDoc defaultConfig with
  | .ok s => s
  | .error _ => ⟨"", "", []⟩

theorem buildState_idempotent_witness :
    tsW2.validB = true ∧
    buildState tsW1 builderDoc defaultConfig = .ok builderState1 ∧
    buildState tsW2 builderDoc defaultConfig = .ok builderState2 ∧
    builderState1.schemaHash = builderState2.schemaHash ∧
    builderState1.indexes = builderState2.indexes ∧
    (tsLe tsW1 tsW2 = true → strLexLe builderState1.generatedAt builderState2.generatedAt = true) :=
  ⟨by decide, rfl, rfl,
    (buildState_idempotent tsW1 tsW2 builderDoc defaultConfig builderState1 builderState2
      (by decide) rfl rfl).1,
    (buildState_idempotent tsW1 tsW2 builderDoc defaultConfig builderState1 builderState2
      (by decide) rfl rfl).2.1,
    (buildState_idempotent tsW1 tsW2 builderDoc defaultConfig builderState1 builderState2
      (by decide) rfl rfl).2.2⟩
